import Mathlib

/-!
Verification of the ember-oa policy-scraper core against its specification.

This file gives a shallow embedding, in Lean 4, of the parts of the
repository the frozen claims are about:

* `ProgressTracker` (src/backend/progress_tracker.py): `start_task`,
  `update_progress`, `complete_task` acting on the in-memory task map
  (the redis mirror stores the same `ProgressUpdate` value, so a single
  association list models both).
* `ResourceMonitor` (src/backend/resource_monitor.py):
  `should_throttle_processing`, the circuit breaker and
  `get_system_metrics` failure behaviour.  Wall-clock time, the sampled
  metrics and the frontend-responsiveness probe are external effects and
  are passed in explicitly; Python floats are modelled by `ℚ`.
* `DataValidator` (src/backend/scraper/validators.py): validation and
  cleaning of candidate policy records.
* `CignaPolicyScraper.save_policy` (src/scraper.py): duplicate-checked
  persistence into the `policy_updates` table, modelled as a list of rows.
* `CignaPolicyScraper.extract_title_from_url` /
  `extract_title_near_coordinates` (src/scraper.py): the link/title
  resolver, with the regex searches of the source implemented directly
  over character lists.
* `CignaPolicyScraper.extract_medical_codes` (src/scraper.py) and
  `DataExtractor._extract_medical_codes`
  (src/backend/scraper/data_extractor.py): the medical-code regex
  scanners, implemented with Python `re` left-to-right non-overlapping
  match semantics (word boundaries, greedy quantifiers with
  backtracking) specialised to the concrete patterns of the source.

Python strings are modelled as `List Char` / `String` restricted to the
character classes the source's regexes use, with `\w` as ASCII
alphanumerics plus underscore and `\s` as ASCII whitespace.
-/

/-! ## Basic character classes (Python `re` ASCII model) -/

/-- Python regex `\w`: alphanumeric or underscore (ASCII model). -/
def wordChar (c : Char) : Bool := c.isAlphanum || c == '_'

/-- Python `\s` / `str.strip` / `str.isspace` whitespace: the exact
codepoint set of CPython for `str` patterns. -/
def pySpace (c : Char) : Bool :=
  let n := c.toNat
  (0x09 ≤ n && n ≤ 0x0d) || n == 0x20 || (0x1c ≤ n && n ≤ 0x1f) ||
  n == 0x85 || n == 0xa0 || n == 0x1680 || (0x2000 ≤ n && n ≤ 0x200a) ||
  n == 0x2028 || n == 0x2029 || n == 0x202f || n == 0x205f || n == 0x3000

/-- Characters removed by `DataValidator._clean_text`'s control-character
pass: the class `[\x00-\x1f\x7f-\x9f]`. -/
def ctrlChar (c : Char) : Bool :=
  c.toNat ≤ 0x1f || (0x7f ≤ c.toNat && c.toNat ≤ 0x9f)

/-! ## Progress tracker (src/backend/progress_tracker.py) -/

/-- Structure for progress updates (`ProgressUpdate` dataclass).
`details` holds the optional free-form dict as key/value pairs. -/
structure ProgressUpdate where
  task_id : String
  status : String
  current_step : Int
  total_steps : Int
  current_item : String
  items_processed : Int
  items_total : Int
  start_time : ℚ
  estimated_completion : Option ℚ := none
  error_message : Option String := none
  details : Option (List (String × String)) := none
deriving DecidableEq, Repr

/-- The tracker's task map `active_tasks` (the redis mirror stores the
same values, so one association list models the stored state). -/
abbrev TrackerState := List (String × ProgressUpdate)

/-- Dictionary lookup `active_tasks[task_id]`. -/
def lookupTask : TrackerState → String → Option ProgressUpdate
  | [], _ => none
  | (k, p) :: rest, id => if k == id then some p else lookupTask rest id

/-- Dictionary write `active_tasks[task_id] = progress`. -/
def setTask : TrackerState → String → ProgressUpdate → TrackerState
  | [], id, p => [(id, p)]
  | (k, q) :: rest, id, p =>
    if k == id then (id, p) :: rest else (k, q) :: setTask rest id p

/-- `ProgressTracker.start_task`: initializes a fresh record with
status `started`, zero progress and the given totals, and stores it. -/
def start_task (s : TrackerState) (task_id : String) (total_items : Int)
    (now : ℚ) (task_type : String := "scraping") :
    ProgressUpdate × TrackerState :=
  let progress : ProgressUpdate :=
    { task_id := task_id
      status := "started"
      current_step := 0
      total_steps := total_items
      current_item := "Initializing..."
      items_processed := 0
      items_total := total_items
      start_time := now
      details := some [("task_type", task_type)] }
  (progress, setTask s task_id progress)

/-- `ProgressTracker.update_progress`: overwrites status, current item
and progress counters for an existing task; recomputes
`estimated_completion` when `items_processed > 0`.  Python would raise
`ZeroDivisionError` on zero elapsed time; `ℚ` division totalises that
corner with `rate = 0`. -/
def update_progress (s : TrackerState) (task_id current_item : String)
    (items_processed : Int) (status : String := "processing")
    (details : Option (List (String × String)) := none) (now : ℚ := 0) :
    Option ProgressUpdate × TrackerState :=
  match lookupTask s task_id with
  | none => (none, s)
  | some p =>
    let p1 : ProgressUpdate :=
      { p with
        status := status
        current_item := current_item
        items_processed := items_processed
        current_step := items_processed
        details := match details with
          | some d => if d == [] then p.details else some d
          | none => p.details }
    let p2 : ProgressUpdate :=
      if 0 < items_processed then
        let elapsed : ℚ := now - p1.start_time
        let rate : ℚ := (items_processed : ℚ) / elapsed
        { p1 with
          estimated_completion :=
            some (now + ((p1.items_total - items_processed : Int) : ℚ) / rate) }
      else p1
    (some p2, setTask s task_id p2)

/-- `ProgressTracker.complete_task`: marks an existing task completed or
failed; on success forces `items_processed` (and `current_step`) to
`items_total`; records a non-empty error message. -/
def complete_task (s : TrackerState) (task_id : String) (success : Bool)
    (error_message : Option String := none) :
    Option ProgressUpdate × TrackerState :=
  match lookupTask s task_id with
  | none => (none, s)
  | some p =>
    let p1 : ProgressUpdate :=
      { p with
        status := if success then "completed" else "failed"
        current_item := if success then "Completed" else "Failed"
        items_processed := if success then p.items_total else p.items_processed
        current_step := if success then p.items_total else p.current_step
        error_message := match error_message with
          | some m => if m == "" then p.error_message else some m
          | none => p.error_message }
    (some p1, setTask s task_id p1)

/-- One tracker operation, with the wall-clock instant it runs at. -/
inductive TrackerOp where
  | start (task_id : String) (total_items : Int) (now : ℚ)
  | update (task_id current_item : String) (items_processed : Int) (now : ℚ)
  | complete (task_id : String) (success : Bool) (error_message : Option String)
deriving DecidableEq

/-- Apply one operation to the stored state (`update` with the default
`status='processing'` argument). -/
def applyOp (s : TrackerState) : TrackerOp → TrackerState
  | .start id total now => (start_task s id total now).2
  | .update id item items now => (update_progress s id item items "processing" none now).2
  | .complete id success msg => (complete_task s id success msg).2

/-- Apply a sequence of operations. -/
def applyOps (s : TrackerState) : List TrackerOp → TrackerState
  | [] => s
  | op :: ops => applyOps (applyOp s op) ops

/-- Successive stored states along a run (including the initial one). -/
def traceStates (s : TrackerState) : List TrackerOp → List TrackerState
  | [] => [s]
  | op :: ops => s :: traceStates (applyOp s op) ops

/-- Terminal statuses of the task state machine. -/
def isTerminalStatus (st : String) : Bool := st == "completed" || st == "failed"

/-- Caller discipline for one operation: tasks are started once with a
non-negative total, and updates/completions target a live (non-terminal)
task with `items_processed` within the task's total. -/
def okOp (s : TrackerState) : TrackerOp → Bool
  | .start id total _ => (lookupTask s id).isNone && decide (0 ≤ total)
  | .update id _ items _ =>
    match lookupTask s id with
    | some p => !isTerminalStatus p.status && decide (items ≤ p.items_total)
    | none => false
  | .complete id _ _ =>
    match lookupTask s id with
    | some p => !isTerminalStatus p.status
    | none => false

/-- Caller discipline for a sequence of operations. -/
def Disciplined : TrackerState → List TrackerOp → Bool
  | _, [] => true
  | s, op :: ops => okOp s op && Disciplined (applyOp s op) ops

/-- The per-record counter invariant of the claim. -/
def ItemsInv (s : TrackerState) : Prop :=
  ∀ pr ∈ s, pr.2.items_processed ≤ pr.2.items_total

/-- Position of a status along `started → processing → {completed|failed}`. -/
def statusRank (st : String) : Nat :=
  if st == "started" then 0
  else if st == "processing" then 1
  else if isTerminalStatus st then 2
  else 0

/-- Statuses only move forward between two states: any task stored in
both has a rank that does not decrease. -/
def RankMono (a b : TrackerState) : Prop :=
  ∀ id p q, lookupTask a id = some p → lookupTask b id = some q →
    statusRank p.status ≤ statusRank q.status

/-- Field projection used by concrete counterexamples:
(items_processed, items_total, status) of a stored task. -/
def storedItems (s : TrackerState) (id : String) : Option (Int × Int × String) :=
  match lookupTask s id with
  | some p => some (p.items_processed, p.items_total, p.status)
  | none => none

/-- State after `start_task('t', 1)`, `complete_task('t', success=True)`,
`update_progress('t', 'x', 5)` from an empty tracker. -/
def c2RunState : TrackerState :=
  applyOps [] [.start "t" 1 0, .complete "t" true none, .update "t" "x" 5 1]

/-- State after the first two of those operations. -/
def c2MidState : TrackerState :=
  applyOps [] [.start "t" 1 0, .complete "t" true none]

/-- Stored items_processed after each of a sequence of
`update_progress` calls (label, items, time) on one task. -/
def updateItemsTrace (s : TrackerState) (id : String) :
    List (String × Int × ℚ) → List Int
  | [] => []
  | (item, items, now) :: rest =>
    let s' := (update_progress s id item items "processing" none now).2
    (match lookupTask s' id with
     | some p => p.items_processed
     | none => 0) :: updateItemsTrace s' id rest

/-! ## Resource monitor (src/backend/resource_monitor.py) -/

/-- One sample of `get_system_metrics` (the dict's numeric fields). -/
structure SystemMetrics where
  cpu_percent : ℚ
  memory_percent : ℚ
  memory_available_gb : ℚ
  disk_percent : ℚ
  process_memory_mb : ℚ
  timestamp : ℚ
deriving DecidableEq, Repr

/-- The monitor's mutable configuration and circuit-breaker state; the
defaults are the values set in `ResourceMonitor.__init__`.  A failed
`psutil` sample makes `get_system_metrics` return the empty dict, which
is modelled by `Option SystemMetrics = none` at each call site. -/
structure ResourceMonitor where
  cpu_threshold : ℚ := 70
  memory_threshold : ℚ := 80
  frontend_response_threshold : ℚ := 2
  circuit_breaker_active : Bool := false
  circuit_breaker_start_time : Option ℚ := none
  circuit_breaker_duration : ℚ := 60
deriving DecidableEq

/-- `ResourceMonitor.activate_circuit_breaker`. -/
def activate_circuit_breaker (m : ResourceMonitor) (now : ℚ) : ResourceMonitor :=
  if !m.circuit_breaker_active then
    { m with circuit_breaker_active := true, circuit_breaker_start_time := some now }
  else m

/-- `ResourceMonitor.should_throttle_processing`.  `metrics` is the
result of `get_system_metrics` (`none` for the empty dict after a psutil
failure), `frontend_responsive` the result of
`check_frontend_responsiveness`, `now` the value of `time.time()`.
Returns the decision and the monitor state after the call. -/
def should_throttle_processing (m : ResourceMonitor)
    (metrics : Option SystemMetrics) (frontend_responsive : Bool) (now : ℚ) :
    Bool × ResourceMonitor :=
  match metrics with
  | none => (true, m)
  | some mt =>
    if m.circuit_breaker_active &&
        !decide (m.circuit_breaker_duration < now - m.circuit_breaker_start_time.getD 0) then
      (true, m)
    else
      let m1 := if m.circuit_breaker_active then
          { m with circuit_breaker_active := false, circuit_breaker_start_time := none }
        else m
      let cpu_high := decide (m.cpu_threshold < mt.cpu_percent)
      let memory_high := decide (m.memory_threshold < mt.memory_percent)
      let frontend_slow := !frontend_responsive
      if cpu_high || memory_high || frontend_slow then
        let m2 := if cpu_high && memory_high then activate_circuit_breaker m1 now else m1
        (true, m2)
      else (false, m1)

/-- Fold `should_throttle_processing` over a sequence of calls, each
with its sampled metrics, probe result and time; returns the decisions
and the final monitor state. -/
def throttleCalls (m : ResourceMonitor) :
    List (Option SystemMetrics × Bool × ℚ) → List Bool × ResourceMonitor
  | [] => ([], m)
  | (mt, fr, t) :: rest =>
    let r := should_throttle_processing m mt fr t
    let rs := throttleCalls r.2 rest
    (r.1 :: rs.1, rs.2)

/-- Monitor state right after the circuit breaker trips at time `t0`. -/
def trippedAt (m : ResourceMonitor) (t0 : ℚ) : ResourceMonitor :=
  { m with circuit_breaker_active := true, circuit_breaker_start_time := some t0 }

/-! ## String helpers shared by validator / scraper models -/

/-- Python `str.strip()` on a character list (ASCII whitespace model). -/
def pyStripList (l : List Char) : List Char :=
  ((l.dropWhile pySpace).reverse.dropWhile pySpace).reverse

/-- Python `str.strip()`. -/
def pyStrip (s : String) : String := ⟨pyStripList s.data⟩

/-- Python `re.sub(r'\s+', ' ', ·)` on a character list: every maximal
whitespace run becomes a single space. -/
def collapseWS : List Char → List Char
  | [] => []
  | [c] => if pySpace c then [' '] else [c]
  | c1 :: c2 :: cs =>
    if pySpace c1 && pySpace c2 then collapseWS (c2 :: cs)
    else (if pySpace c1 then ' ' else c1) :: collapseWS (c2 :: cs)

/-- Python `re.sub(r'[\x00-\x1f\x7f-\x9f]', '', ·)`. -/
def removeCtrlChars (l : List Char) : List Char := l.filter (fun c => !ctrlChar c)

/-- Python `str.upper()` (ASCII model). -/
def pyUpper (s : String) : String := ⟨s.data.map Char.toUpper⟩

/-- Python `str.lower()` (ASCII model). -/
def pyLower (s : String) : String := ⟨s.data.map Char.toLower⟩

/-- Leftmost split of a list at the first `':'`, used by the `urlparse`
model. -/
def splitAtColon : List Char → Option (List Char × List Char)
  | [] => none
  | c :: cs =>
    if c == ':' then some ([], cs)
    else
      match splitAtColon cs with
      | some (a, b) => some (c :: a, b)
      | none => none

/-- Characters allowed in a URL scheme by `urllib.parse`. -/
def isSchemeChar (c : Char) : Bool := c.isAlphanum || c == '+' || c == '-' || c == '.'

/-- Scheme/rest split of `urllib.parse.urlparse`: the part before the
first `':'` is the scheme when it starts with a letter and consists of
scheme characters; otherwise the scheme is empty. -/
def urlSchemeRest (l : List Char) : List Char × List Char :=
  match splitAtColon l with
  | some (c :: t, after) =>
    if c.isAlpha && (c :: t).all isSchemeChar then ((c :: t).map Char.toLower, after)
    else ([], l)
  | some ([], _) => ([], l)
  | none => ([], l)

/-- Netloc of `urllib.parse.urlparse`: present only when the remainder
after the scheme starts with `//`, up to the next `/`, `?` or `#`. -/
def urlNetloc : List Char → List Char
  | '/' :: '/' :: r => r.takeWhile (fun c => !(c == '/' || c == '?' || c == '#'))
  | _ => []

/-- Input preprocessing of `urllib.parse.urlsplit`: strip leading C0
control/space characters, then remove every tab, carriage return and
newline. -/
def urlPreprocess (l : List Char) : List Char :=
  (l.dropWhile (fun c => c.toNat ≤ 0x20)).filter
    (fun c => !(c == '\t' || c == '\r' || c == '\n'))

/-- `DataValidator._is_valid_url`: `urlparse` yields a non-empty scheme
and netloc. -/
def is_valid_url (url : String) : Bool :=
  let sr := urlSchemeRest (urlPreprocess url.data)
  !sr.1.isEmpty && !(urlNetloc sr.2).isEmpty

/-- Match for an anchored pattern `^...$`: Python `$` also matches just
before one trailing newline. -/
def anchoredMatch (p : List Char → Bool) (s : List Char) : Bool :=
  p s || (match s.getLast? with
    | some c => c == '\n' && p s.dropLast
    | none => false)

/-! ## Data validator (src/backend/scraper/validators.py) -/

/-- One element of a record's `medical_codes` list, with the keys the
validator and extractor use. -/
structure MedicalCodeRec where
  code : String
  type : String
  description : String
deriving DecidableEq, Repr

/-- One element of a record's `referenced_documents` list. -/
structure RefDocRec where
  title : String
  url : String
  type : String
deriving DecidableEq, Repr

/-- A candidate policy record as passed to
`DataValidator.validate_policy_data`.  Missing and empty string fields
are both falsy in the source and are modelled as `""`;
`published_date`, always a datetime in this model, is opaque. -/
structure PolicyData where
  title : String := ""
  url : String := ""
  published_date : Option Int := none
  category : String := ""
  body_content : String := ""
  month_year : String := ""
  medical_codes : List MedicalCodeRec := []
  referenced_documents : List RefDocRec := []
deriving DecidableEq, Repr

/-- Result dict of `validate_policy_data`. -/
structure ValidationResult where
  is_valid : Bool
  errors : List String
  warnings : List String
  validated_data : PolicyData
deriving DecidableEq, Repr

namespace DataValidator

/-- Body of the validator's CPT pattern `^\d{5}$`. -/
def cptBody (s : List Char) : Bool := s.length == 5 && s.all Char.isDigit

/-- Body of the validator's HCPCS pattern `^[A-Z]\d{4}$`. -/
def hcpcsBody : List Char → Bool
  | c :: rest => c.isUpper && rest.length == 4 && rest.all Char.isDigit
  | [] => false

/-- Body of the validator's ICD-10 pattern `^[A-Z]\d{2}\.?\d{0,2}$`. -/
def icd10Body : List Char → Bool
  | l :: d1 :: d2 :: rest =>
    l.isUpper && d1.isDigit && d2.isDigit &&
      (let rest' := match rest with
        | '.' :: t => t
        | t => t
       rest'.length ≤ 2 && rest'.all Char.isDigit)
  | _ => false

/-- Warnings of `_validate_medical_codes`, with Python's 1-based
`enumerate` index. -/
def medicalCodeWarnings : List MedicalCodeRec → Nat → List String
  | [], _ => []
  | c :: rest, i =>
    (if c.code == "" then ["Medical code " ++ toString i ++ " has empty code value"]
     else if c.type == "CPT" && !anchoredMatch cptBody c.code.data then
       ["Invalid CPT code format: " ++ c.code]
     else if c.type == "HCPCS" && !anchoredMatch hcpcsBody c.code.data then
       ["Invalid HCPCS code format: " ++ c.code]
     else if c.type == "ICD10" && !anchoredMatch icd10Body c.code.data then
       ["Invalid ICD-10 code format: " ++ c.code]
     else []) ++ medicalCodeWarnings rest (i + 1)

/-- Warnings of `_validate_referenced_documents`. -/
def refDocWarnings : List RefDocRec → Nat → List String
  | [], _ => []
  | d :: rest, i =>
    (if d.url != "" && !is_valid_url d.url then
       ["Invalid document URL " ++ toString i ++ ": " ++ d.url]
     else []) ++
    (if d.title == "" then ["Document " ++ toString i ++ " has no title"] else []) ++
    refDocWarnings rest (i + 1)

/-- `DataValidator._clean_text`: collapse whitespace runs, strip control
characters, strip the ends. -/
def clean_text (s : String) : String :=
  ⟨pyStripList (removeCtrlChars (collapseWS s.data))⟩

/-- `DataValidator._clean_data`, as a functional copy of the record. -/
def clean_data (data : PolicyData) : PolicyData :=
  { data with
    title := if data.title != "" then pyStrip data.title else data.title
    category := if data.category != "" then pyStrip data.category else data.category
    body_content :=
      if data.body_content != "" then clean_text data.body_content else data.body_content
    medical_codes := data.medical_codes.map (fun c =>
      { c with code := pyUpper (pyStrip c.code), description := pyStrip c.description })
    referenced_documents := data.referenced_documents.map (fun d =>
      { d with title := pyStrip d.title, url := pyStrip d.url }) }

/-- `DataValidator.validate_policy_data`: required fields, formats,
medical codes and referenced documents are checked in order, then the
copy of the record is cleaned.  `is_valid` is flipped to `False` exactly
at the error sites of the source. -/
def validate_policy_data (data : PolicyData) : ValidationResult :=
  let v1 := if data.title == "" then false else true
  let v2 := if data.url == "" then false else v1
  let v3 := if data.url != "" && !is_valid_url data.url then false else v2
  let errs :=
    (if data.title == "" then ["Missing required field: title"] else []) ++
    (if data.url == "" then ["Missing required field: url"] else []) ++
    (if data.url != "" && !is_valid_url data.url then
       ["Invalid URL format: " ++ data.url] else [])
  let warns :=
    (if data.title != "" then
       (if data.title.length < 5 then ["Title seems too short"]
        else if 500 < data.title.length then ["Title seems too long"]
        else [])
     else []) ++
    (if data.body_content != "" then
       (if data.body_content.length < 50 then ["Body content seems too short"]
        else if 50000 < data.body_content.length then ["Body content seems too long"]
        else [])
     else []) ++
    medicalCodeWarnings data.medical_codes 1 ++
    refDocWarnings data.referenced_documents 1
  { is_valid := v3
    errors := errs
    warnings := warns
    validated_data := clean_data data }

end DataValidator

/-! ## Persistence: CignaPolicyScraper.save_policy (src/scraper.py) -/

/-- Python `x or default` for an optional string: `None` and `""` are
both falsy. -/
def orDefault (o : Option String) (d : String) : String :=
  match o with
  | some s => if s == "" then d else s
  | none => d

/-- A row of the `policy_updates` table as prepared by `save_policy`. -/
structure PolicyRow where
  title : String
  policy_url : String
  monthly_pdf_url : String
  policy_number : String
  published_date : Option Int
  effective_date : Option Int
  category : String
  status : String
  body_content : String
  month_year : String
deriving DecidableEq, Repr

/-- The `policy_data` dict handed to `save_policy` (fields retrieved
with `.get`, so each may be absent/None). -/
structure ScrapedPolicy where
  title : Option String := none
  policy_url : Option String := none
  monthly_pdf_url : Option String := none
  published_date : Option Int := none
  effective_date : Option Int := none
  category : Option String := none
  status : Option String := none
  body_content : Option String := none
  month_year : Option String := none
deriving DecidableEq, Repr

/-- Leftmost match of `\((\d{4})\)` at the head of the list. -/
def matchParenNum : List Char → Option (List Char)
  | '(' :: a :: b :: c :: d :: ')' :: _ =>
    if a.isDigit && b.isDigit && c.isDigit && d.isDigit then some [a, b, c, d] else none
  | _ => none

/-- `re.search(r'\((\d{4})\)', ·)`: leftmost occurrence. -/
def searchParenNum : List Char → Option (List Char)
  | [] => none
  | c :: cs =>
    match matchParenNum (c :: cs) with
    | some ds => some ds
    | none => searchParenNum cs

/-- `CignaPolicyScraper.extract_policy_number`: the first
parenthesized 4-digit group of the title, else `''`. -/
def extract_policy_number (title : String) : String :=
  match searchParenNum title.data with
  | some ds => ⟨ds⟩
  | none => ""

/-- `CignaPolicyScraper.save_policy` against the `policy_updates` table
(modelled as the list of rows, insertion appending a row and always
succeeding).  Returns the source's boolean result and the table after
the call: `False` and an unchanged table when a row with the same
`policy_url` already exists, otherwise `True` and the inserted row. -/
def save_policy (store : List PolicyRow) (policy_data : ScrapedPolicy) :
    Bool × List PolicyRow :=
  let url := policy_data.policy_url.getD ""
  if store.any (fun r => r.policy_url == url) then (false, store)
  else
    let row : PolicyRow :=
      { title := orDefault policy_data.title "Unknown Policy"
        policy_url := orDefault policy_data.policy_url ""
        monthly_pdf_url := orDefault policy_data.monthly_pdf_url ""
        policy_number := extract_policy_number (orDefault policy_data.title "")
        published_date := policy_data.published_date
        effective_date := policy_data.effective_date
        category := orDefault policy_data.category "Policy Update"
        status := orDefault policy_data.status "Active"
        body_content := orDefault policy_data.body_content ""
        month_year := orDefault policy_data.month_year "" }
    (true, store ++ [row])

/-! ## Link/Title resolver (src/scraper.py) -/

/-- Remove a literal leading sequence, returning the remainder. -/
def dropPre : List Char → List Char → Option (List Char)
  | [], l => some l
  | _ :: _, [] => none
  | t :: ts, c :: cs => if c == t then dropPre ts cs else none

/-- Whether `needle` is a literal leading sequence of `hay`. -/
def startsWithChars (needle hay : List Char) : Bool := (dropPre needle hay).isSome

/-- Python `needle in hay` substring test. -/
def isSubstrOf : List Char → List Char → Bool
  | n, [] => n.isEmpty
  | n, c :: cs => startsWithChars n (c :: cs) || isSubstrOf n cs

/-- Greedy `(.+)\.pdf` tail search: the largest `k ≥ 1` such that the
first `k` characters contain no newline and `.pdf` follows them.
`k` counts from the supplied offset accumulator. -/
def lastDotPdfAux : List Char → Nat → Option Nat → Option Nat
  | r, k, best =>
    let best' := if 1 ≤ k && startsWithChars ".pdf".data r then some k else best
    match r with
    | [] => best'
    | c :: cs => if c == '\n' then best' else lastDotPdfAux cs (k + 1) best'

/-- Match of `{tag}\d+{mid}(.+)\.pdf` anchored at the head of the list,
returning the `(.+)` group (greedy, so up to the last feasible `.pdf`). -/
def searchSlugAt (tag mid cs : List Char) : Option (List Char) :=
  match dropPre tag cs with
  | none => none
  | some r0 =>
    if (r0.takeWhile Char.isDigit).isEmpty then none
    else
      match dropPre mid (r0.dropWhile Char.isDigit) with
      | none => none
      | some r2 =>
        match lastDotPdfAux r2 0 none with
        | some k => some (r2.take k)
        | none => none

/-- `re.search` for `{tag}\d+{mid}(.+)\.pdf`: leftmost match wins. -/
def searchSlug (tag mid : List Char) : List Char → Option (List Char)
  | [] => none
  | c :: cs =>
    match searchSlugAt tag mid (c :: cs) with
    | some g => some g
    | none => searchSlug tag mid cs

/-- Match of `(mm_|ip_|ph_)(\d+)` anchored at the head of the list
(the three alternatives have distinct first letters, so the regex
alternation order reduces to trying whichever tag is present). -/
def tagNumAt (cs : List Char) : Option (List Char × List Char) :=
  match dropPre "mm_".data cs with
  | some r => let ds := r.takeWhile Char.isDigit
              if ds.isEmpty then none else some ("mm_".data, ds)
  | none =>
    match dropPre "ip_".data cs with
    | some r => let ds := r.takeWhile Char.isDigit
                if ds.isEmpty then none else some ("ip_".data, ds)
    | none =>
      match dropPre "ph_".data cs with
      | some r => let ds := r.takeWhile Char.isDigit
                  if ds.isEmpty then none else some ("ph_".data, ds)
      | none => none

/-- `re.search(r'(mm_|ip_|ph_)(\d+)', ·)`: leftmost match. -/
def searchTagNum : List Char → Option (List Char × List Char)
  | [] => none
  | c :: cs =>
    match tagNumAt (c :: cs) with
    | some r => some r
    | none => searchTagNum cs

/-- Python `str.title()` (ASCII model): the first letter of every
contiguous letter run is uppercased, the rest lowercased. -/
def pyTitleAux : Bool → List Char → List Char
  | _, [] => []
  | prevCased, c :: cs =>
    if c.isAlpha then (if prevCased then c.toLower else c.toUpper) :: pyTitleAux true cs
    else c :: pyTitleAux false cs

/-- Python `str.title()`. -/
def pyTitle (l : List Char) : List Char := pyTitleAux false l

/-- Policy name derived from a URL slug:
`match.group(1).replace('_', ' ').title()`. -/
def slugTitle (g : List Char) : String :=
  ⟨pyTitle (g.map (fun c => if c == '_' then ' ' else c))⟩

/-- Python `s.upper().rstrip('_')` for a matched tag. -/
def tagUpperTrim (tag : List Char) : String :=
  ⟨((tag.map Char.toUpper).reverse.dropWhile (· == '_')).reverse⟩

/-- `CignaPolicyScraper.extract_title_from_url`: try the three
`(mm|ip|ph)_\d+_coveragepositioncriteria_(.+)\.pdf` patterns in order;
on a match, derive the policy name from the slug and append the
uppercased tag and number of the first `(mm_|ip_|ph_)(\d+)` occurrence;
otherwise `'Unknown Policy'`. -/
def extract_title_from_url (url : String) : String :=
  let u := url.data
  let crit := "_coveragepositioncriteria_".data
  let found :=
    match searchSlug "mm_".data crit u with
    | some g => some g
    | none =>
      match searchSlug "ip_".data crit u with
      | some g => some g
      | none => searchSlug "ph_".data crit u
  match found with
  | none => "Unknown Policy"
  | some g =>
    let policy_name := slugTitle g
    match searchTagNum u with
    | some (tag, num) =>
      policy_name ++ " - (" ++ tagUpperTrim tag ++ (⟨num⟩ : String) ++ ")"
    | none => policy_name

/-- Hyperlink annotation as consumed by the resolver. -/
structure Annot where
  uri : String := ""
  x0 : ℚ := 0
  y0 : ℚ := 0
  x1 : ℚ := 0
  y1 : ℚ := 0
deriving DecidableEq, Repr

/-- One word extracted from the page with its bounding box. -/
structure PdfWord where
  text : String := ""
  x0 : ℚ := 0
  y0 : ℚ := 0
  x1 : ℚ := 0
  y1 : ℚ := 0
deriving DecidableEq, Repr

/-- A page as the resolver sees it: extracted tables (rows of optional
cell strings) and extracted words. -/
structure PdfPage where
  tables : List (List (List (Option String))) := []
  words : List PdfWord := []
deriving DecidableEq, Repr

/-- The table-cell filter of `extract_title_near_coordinates`, applied
to an already-stripped cell text. -/
def cellOK (ct : String) : Bool :=
  let t := ct.data
  decide (t.length < 100) && decide (5 < t.length) &&
  !startsWithChars "•".data t &&
  !startsWithChars "Effective".data t &&
  !isSubstrOf "Policy Statement".data t &&
  !isSubstrOf "authorizes coverage".data (t.map Char.toLower) &&
  !isSubstrOf "Coverage Policy Unit".data t &&
  !isSubstrOf "Monthly Policy Updates".data t &&
  !isSubstrOf "CPU".data t &&
  !startsWithChars "and ".data t &&
  isSubstrOf "(".data t && isSubstrOf ")".data t

/-- First qualifying cell of a row (`None` and empty cells skipped). -/
def firstGoodCellRow : List (Option String) → Option String
  | [] => none
  | none :: rest => firstGoodCellRow rest
  | some cell :: rest =>
    if cell == "" then firstGoodCellRow rest
    else
      let ct := pyStrip cell
      if cellOK ct then some ct else firstGoodCellRow rest

/-- First qualifying cell of a table. -/
def firstGoodCellRows : List (List (Option String)) → Option String
  | [] => none
  | row :: rest =>
    match firstGoodCellRow row with
    | some t => some t
    | none => firstGoodCellRows rest

/-- First qualifying cell across all tables. -/
def firstGoodCellTables : List (List (List (Option String))) → Option String
  | [] => none
  | tbl :: rest =>
    match firstGoodCellRows tbl with
    | some t => some t
    | none => firstGoodCellTables rest

/-- The last-resort URL patterns at the end of
`extract_title_near_coordinates` (the three criteria patterns plus
`ph_\d+_coverageposition_(.+)\.pdf`), yielding a slug-derived name
without the policy-number suffix. -/
def lastResortUrlTitle (url : String) : Option String :=
  let u := url.data
  let crit := "_coveragepositioncriteria_".data
  match searchSlug "mm_".data crit u with
  | some g => some (slugTitle g)
  | none =>
    match searchSlug "ip_".data crit u with
    | some g => some (slugTitle g)
    | none =>
      match searchSlug "ph_".data crit u with
      | some g => some (slugTitle g)
      | none =>
        match searchSlug "ph_".data "_coverageposition_".data u with
        | some g => some (slugTitle g)
        | none => none

/-- Stable insertion of a word into a list sorted by `x0`: the new word
goes after every word whose `x0` is not greater (Python sort
stability). -/
def insertWordByX0 (x : PdfWord) : List PdfWord → List PdfWord
  | [] => [x]
  | y :: ys => if y.x0 ≤ x.x0 then y :: insertWordByX0 x ys else x :: y :: ys

/-- Python's stable ascending `list.sort(key=lambda w: w.x0)`. -/
def sortWordsByX0 (l : List PdfWord) : List PdfWord :=
  l.foldl (fun acc x => insertWordByX0 x acc) []

/-- The word-proximity step of `extract_title_near_coordinates`: words
whose bounding boxes are in the same row (within 15 layout units
vertically) and within 100 units horizontally of the link's box, joined
left-to-right (a stable sort by `x0`) and stripped. -/
def nearbyWordsTitle (page : PdfPage) (annot : Annot) : String :=
  let nearby := page.words.filter (fun w =>
    decide (|w.y0 - annot.y0| < 15) &&
    decide (w.x0 < annot.x1 + 100) &&
    decide (annot.x0 - 100 < w.x1))
  pyStrip (String.intercalate " " ((sortWordsByX0 nearby).map (·.text)))

/-- `CignaPolicyScraper.extract_title_near_coordinates`: URL-derived
title first, then the first qualifying table cell, then words whose
bounding boxes are near the link's box joined in reading order, then
the last-resort URL patterns, and finally `'Unknown Policy'`. -/
def extract_title_near_coordinates (page : PdfPage) (annot : Annot) : String :=
  let url := annot.uri
  let urlStep : Option String :=
    if url != "" then
      let t := extract_title_from_url url
      if t != "" && t != "Unknown Policy" then some t else none
    else none
  match urlStep with
  | some t => t
  | none =>
    match firstGoodCellTables page.tables with
    | some t => t
    | none =>
      let title_text := nearbyWordsTitle page annot
      if title_text != "" && 5 < title_text.length then title_text
      else
        match lastResortUrlTitle url with
        | some t => t
        | none => "Unknown Policy"

/-! ## Medical-code scanners

Python `re.finditer` over the concrete patterns of the source, as a
left-to-right non-overlapping scan: at each position the pattern is
tried (with its leading word boundary, which for these patterns reduces
to the previous character not being a word character); on a match the
scan resumes right after it, otherwise one character further.  The scan
is fueled for structural recursion; fuel `≥` the list length is enough,
since every step consumes at least one character. -/

/-- Trailing `\b` after a token ending in a word character: the next
character is absent or not a word character. -/
def afterB : List Char → Bool
  | [] => true
  | c :: _ => !wordChar c

/-- Match of `\b(\d{5})\b` anchored at the head (leading boundary is
checked by the scanner). -/
def cptTry : List Char → Option (List Char × List Char)
  | a :: b :: c :: d :: e :: rest =>
    if a.isDigit && b.isDigit && c.isDigit && d.isDigit && e.isDigit && afterB rest
    then some ([a, b, c, d, e], rest) else none
  | _ => none

/-- Match of `\b([A-Z]\d{4})\b` anchored at the head. -/
def hcpcsTry : List Char → Option (List Char × List Char)
  | a :: b :: c :: d :: e :: rest =>
    if a.isUpper && b.isDigit && c.isDigit && d.isDigit && e.isDigit && afterB rest
    then some ([a, b, c, d, e], rest) else none
  | _ => none

/-- Letter class `[A-TV-Z]` of the scraper's ICD-10 pattern. -/
def icdLetter (c : Char) : Bool := c.isUpper && c != 'U'

/-- Greedy `\d{1,bound}` followed by `\b`, with backtracking from the
longest attempt down to one digit. -/
def fracTry : Nat → List Char → Option (List Char × List Char)
  | 0, _ => none
  | j + 1, ds =>
    let tk := ds.take (j + 1)
    if tk.length == j + 1 && tk.all Char.isDigit && afterB (ds.drop (j + 1))
    then some (tk, ds.drop (j + 1))
    else fracTry j ds

/-- Match of `\b([A-TV-Z]\d{2}(?:\.\d{1,4})?)\b` anchored at the head
(src/scraper.py `icd10_pattern`).  The optional group is greedy; when it
fails the bare three-character form still matches, the boundary before
`'.'` holding trivially. -/
def icdTry : List Char → Option (List Char × List Char)
  | l :: d1 :: d2 :: rest =>
    if icdLetter l && d1.isDigit && d2.isDigit then
      match rest with
      | r0 :: ds =>
        if r0 = '.' then
          match fracTry 4 ds with
          | some (fr, rest') => some (l :: d1 :: d2 :: '.' :: fr, rest')
          | none => some ([l, d1, d2], '.' :: ds)
        else if afterB (r0 :: ds) then some ([l, d1, d2], r0 :: ds) else none
      | [] => some ([l, d1, d2], [])
    else none
  | _ => none

/-- Match of `\b([A-Z]\d{2}\.?\d{0,2})\b` anchored at the head
(data_extractor.py `icd10_pattern`).  Greedy order: consume `'.'` if
present, then two, one or zero fraction digits; a token ending in `'.'`
needs the next character to be a word character for the boundary; if the
dotted attempts all fail, the dot is left unconsumed and the bare
three-character form matches. -/
def extIcdTry : List Char → Option (List Char × List Char)
  | l :: d1 :: d2 :: rest =>
    if l.isUpper && d1.isDigit && d2.isDigit then
      match rest with
      | '.' :: ds =>
        let t2 := ds.take 2
        if t2.length == 2 && t2.all Char.isDigit && afterB (ds.drop 2) then
          some (l :: d1 :: d2 :: '.' :: t2, ds.drop 2)
        else
          let t1 := ds.take 1
          if t1.length == 1 && t1.all Char.isDigit && afterB (ds.drop 1) then
            some (l :: d1 :: d2 :: '.' :: t1, ds.drop 1)
          else
            match ds with
            | c :: _ =>
              if wordChar c then some ([l, d1, d2, '.'], ds)
              else some ([l, d1, d2], '.' :: ds)
            | [] => some ([l, d1, d2], '.' :: ds)
      | _ =>
        let t2 := rest.take 2
        if t2.length == 2 && t2.all Char.isDigit && afterB (rest.drop 2) then
          some (l :: d1 :: d2 :: t2, rest.drop 2)
        else
          let t1 := rest.take 1
          if t1.length == 1 && t1.all Char.isDigit && afterB (rest.drop 1) then
            some (l :: d1 :: d2 :: t1, rest.drop 1)
          else if afterB rest then some ([l, d1, d2], rest)
          else none
    else none
  | _ => none

/-- Fueled `finditer` scan: `prevW` is whether the previous character is
a word character (`false` at the start of the text), `pos` the current
offset; emits `(offset, matched characters)` pairs. -/
def scanAux (tm : List Char → Option (List Char × List Char)) :
    Nat → Bool → Nat → List Char → List (Nat × List Char)
  | 0, _, _, _ => []
  | _ + 1, _, _, [] => []
  | fuel + 1, prevW, pos, c :: cs =>
    if prevW != wordChar c then
      match tm (c :: cs) with
      | some (tok, rest) =>
        (pos, tok) ::
          scanAux tm fuel
            (match tok.getLast? with
             | some t => wordChar t
             | none => prevW)
            (pos + tok.length) rest
      | none => scanAux tm fuel (wordChar c) (pos + 1) cs
    else scanAux tm fuel (wordChar c) (pos + 1) cs

/-- Run a scanner over a whole text. -/
def scanText (tm : List Char → Option (List Char × List Char))
    (t : List Char) : List (Nat × List Char) :=
  scanAux tm t.length false 0 t

/-- Python `str.split('\n')`. -/
def splitOnNewline : List Char → List (List Char)
  | [] => [[]]
  | c :: cs =>
    let r := splitOnNewline cs
    if c == '\n' then [] :: r
    else
      match r with
      | h :: t => (c :: h) :: t
      | [] => [[c]]

/-- Lines joined with single spaces. -/
def joinSpaceChars (ls : List (List Char)) : List Char := List.intercalate [' '] ls

/-- Helper for `extract_code_description`: first line containing the
code, joined with the next two lines, stripped, whitespace-collapsed. -/
def ecdAux : List (List Char) → List Char → Option String
  | [], _ => none
  | ln :: rest, code =>
    if isSubstrOf code ln then
      some ⟨(collapseWS (joinSpaceChars ((ln :: rest.take 2).map pyStripList))).take 200⟩
    else ecdAux rest code

/-- `CignaPolicyScraper.extract_code_description`. -/
def extract_code_description (context code : List Char) : String :=
  match ecdAux (splitOnNewline context) code with
  | some d => d
  | none => ""

/-- One code dict of `CignaPolicyScraper.extract_medical_codes`. -/
structure ScraperCode where
  code : String
  code_type : String
  description : String
deriving DecidableEq, Repr

/-- Build one scraper code entry from a match: the description is taken
from the ±50-character context window around the match. -/
def codeEntry (text : List Char) (ty : String) (pt : Nat × List Char) : ScraperCode :=
  let p := pt.1
  let tok := pt.2
  let s := p - 50
  let e := min text.length (p + tok.length + 50)
  let context := (text.take e).drop s
  { code := ⟨tok⟩, code_type := ty, description := extract_code_description context tok }

/-- `CignaPolicyScraper.extract_medical_codes`: the three regex passes
in source order, with no deduplication. -/
def extract_medical_codes (text : String) : List ScraperCode :=
  let t := text.data
  ((scanText cptTry t).map (codeEntry t "CPT")) ++
  ((scanText hcpcsTry t).map (codeEntry t "HCPCS")) ++
  ((scanText icdTry t).map (codeEntry t "ICD-10"))

/-- One code entry of `DataExtractor._extract_medical_codes`, whose
description is the placeholder of `_get_code_description`. -/
def mkExtractorEntry (ty : String) (tok : List Char) : MedicalCodeRec :=
  { code := ⟨tok⟩, type := ty, description := ty ++ " Code: " ++ (⟨tok⟩ : String) }

/-- The concatenated per-pattern match lists of
`DataExtractor._extract_medical_codes` before deduplication. -/
def extractorRawCodes (text : String) : List MedicalCodeRec :=
  let t := text.data
  ((scanText cptTry t).map (fun pt => mkExtractorEntry "CPT" pt.2)) ++
  ((scanText hcpcsTry t).map (fun pt => mkExtractorEntry "HCPCS" pt.2)) ++
  ((scanText extIcdTry t).map (fun pt => mkExtractorEntry "ICD10" pt.2))

/-- The dedup key `f"{code}_{type}"`. -/
def codeKey (c : MedicalCodeRec) : String := c.code ++ "_" ++ c.type

/-- The `seen_codes` dedup loop: keep the first entry per key. -/
def dedupCodes : List MedicalCodeRec → List String → List MedicalCodeRec
  | [], _ => []
  | c :: rest, seen =>
    if seen.contains (codeKey c) then dedupCodes rest seen
    else c :: dedupCodes rest (codeKey c :: seen)

namespace DataExtractor

/-- `DataExtractor._extract_medical_codes`: the three regex passes
followed by first-occurrence deduplication on `(code, type)`. -/
def extract_medical_codes (text : String) : List MedicalCodeRec :=
  dedupCodes (extractorRawCodes text) []

end DataExtractor

/-! ## Token shapes and flank conditions for the scanner theorems -/

/-- A CPT token: exactly five digits. -/
def isCPTtok (tok : List Char) : Bool := tok.length == 5 && tok.all Char.isDigit

/-- An HCPCS token: one uppercase letter and four digits. -/
def isHCPCStok : List Char → Bool
  | a :: rest => a.isUpper && rest.length == 4 && rest.all Char.isDigit
  | [] => false

/-- An ICD-10 token of the scraper's pattern: a letter in `[A-TV-Z]`,
two digits, and optionally a dot followed by one to four digits. -/
def isICDtok : List Char → Bool
  | l :: d1 :: d2 :: rest =>
    icdLetter l && d1.isDigit && d2.isDigit &&
      (match rest with
       | [] => true
       | r0 :: fr => r0 == '.' && !fr.isEmpty && fr.length ≤ 4 && fr.all Char.isDigit)
  | _ => false

/-- The context left of a standalone token ends in a non-word character
(or is empty, i.e. the token starts the text). -/
def okLeft (l : List Char) : Bool :=
  match l.getLast? with
  | none => true
  | some c => !wordChar c

/-- The context right of a standalone token starts with a non-word
character (or is empty). -/
def okRight : List Char → Bool
  | [] => true
  | c :: _ => !wordChar c

/-- The right context does not begin with a dot followed by a digit
(otherwise the greedy optional fraction of the ICD-10 pattern extends
the match past the token). -/
def noDotDigit : List Char → Bool
  | '.' :: c :: _ => !c.isDigit
  | _ => true

/-- The code/type pairs of a list of scraper entries. -/
def codeTypePairs (l : List ScraperCode) : List (String × String) :=
  l.map (fun e => (e.code, e.code_type))

/-- The candidate record of the C5 counterexample: its body holds a
control character between two spaces. -/
def c5Record : PolicyData :=
  { title := "Valid Title", url := "https://www.cigna.com/policy",
    body_content := "a \x01 b" }

/-! # Theorems -/

/-! ## Resource monitor: C4, C10 -/

/-- While the circuit breaker is active and inside the cooldown window,
a call returns `true` and leaves the monitor unchanged, whatever the
sample and probe say. -/
theorem throttle_hold (m : ResourceMonitor) (metrics : Option SystemMetrics)
    (fr : Bool) (t s : ℚ) (hact : m.circuit_breaker_active = true)
    (hst : m.circuit_breaker_start_time = some s)
    (hwin : t - s ≤ m.circuit_breaker_duration) :
    should_throttle_processing m metrics fr t = (true, m) := by
  cases metrics with
  | none => rfl
  | some mt =>
    unfold should_throttle_processing
    simp [hact, hst, not_lt.mpr hwin]

/-- All decisions in a window of calls made while the breaker is active
are `true` and the state is untouched. -/
theorem throttle_hold_calls (m : ResourceMonitor) (s : ℚ)
    (calls : List (Option SystemMetrics × Bool × ℚ))
    (hact : m.circuit_breaker_active = true)
    (hst : m.circuit_breaker_start_time = some s)
    (hwin : ∀ c ∈ calls, c.2.2 - s ≤ m.circuit_breaker_duration) :
    throttleCalls m calls = (calls.map (fun _ => true), m) := by
  induction calls with
  | nil => rfl
  | cons c rest ih =>
    have h1 : should_throttle_processing m c.1 c.2.1 c.2.2 = (true, m) :=
      throttle_hold m c.1 c.2.1 c.2.2 s hact hst (hwin c (by simp))
    have h2 := ih (fun x hx => hwin x (by simp [hx]))
    simp only [throttleCalls, h1, h2, List.map_cons]

/--
C4: once a single sample reports CPU above the 70% threshold and memory
above the 80% threshold simultaneously, `should_throttle_processing`
trips the circuit breaker; every call within the following 60 seconds
returns `true` with the breaker state untouched, even when the samples
in the window are normal (or missing); and a call after the 60-second
cooldown with a normal sample and a responsive frontend resets the
breaker and returns `false` again.
-/
theorem C4_circuit_breaker_window (m0 : ResourceMonitor) (mt mt' : SystemMetrics)
    (fr : Bool) (t0 t' : ℚ) (calls : List (Option SystemMetrics × Bool × ℚ))
    (hactive : m0.circuit_breaker_active = false)
    (hcpu : m0.cpu_threshold < mt.cpu_percent)
    (hmem : m0.memory_threshold < mt.memory_percent)
    (hwin : ∀ c ∈ calls, c.2.2 - t0 ≤ m0.circuit_breaker_duration)
    (hlate : m0.circuit_breaker_duration < t' - t0)
    (hcpu' : mt'.cpu_percent ≤ m0.cpu_threshold)
    (hmem' : mt'.memory_percent ≤ m0.memory_threshold) :
    should_throttle_processing m0 (some mt) fr t0 = (true, trippedAt m0 t0) ∧
    throttleCalls (trippedAt m0 t0) calls = (calls.map (fun _ => true), trippedAt m0 t0) ∧
    should_throttle_processing (trippedAt m0 t0) (some mt') true t' =
      (false, { m0 with circuit_breaker_active := false,
                        circuit_breaker_start_time := none }) := by
  refine ⟨?_, ?_, ?_⟩
  · unfold should_throttle_processing activate_circuit_breaker
    simp [hactive, hcpu, hmem, trippedAt]
  · exact throttle_hold_calls (trippedAt m0 t0) t0 calls (by simp [trippedAt, hactive])
      (by simp [trippedAt]) (by simpa [trippedAt] using hwin)
  · unfold should_throttle_processing
    simp [trippedAt, hlate, not_lt.mpr hcpu', not_lt.mpr hmem']

/-- Witness for C4 at concrete inputs: default monitor, a 90%/90%
sample at time 0, two in-window calls (a normal sample at 30s, a failed
sample at 60s) and a reset call at 61s with a normal sample. -/
theorem C4_circuit_breaker_window_witness :
    should_throttle_processing {} (some ⟨90, 90, 8, 10, 100, 0⟩) true 0 =
      (true, trippedAt {} 0) ∧
    throttleCalls (trippedAt {} 0)
        [(some ⟨10, 10, 8, 10, 100, 30⟩, true, 30), (none, false, 60)] =
      ([true, true], trippedAt {} 0) ∧
    should_throttle_processing (trippedAt {} 0) (some ⟨10, 10, 8, 10, 100, 61⟩) true 61 =
      (false, { ResourceMonitor.mk 70 80 2 false none 60 with
                circuit_breaker_active := false,
                circuit_breaker_start_time := none }) := by
  have h := C4_circuit_breaker_window {} ⟨90, 90, 8, 10, 100, 0⟩ ⟨10, 10, 8, 10, 100, 61⟩
    true 0 61 [(some ⟨10, 10, 8, 10, 100, 30⟩, true, 30), (none, false, 60)]
    rfl (by norm_num) (by norm_num)
    (by intro c hc; fin_cases hc <;> norm_num)
    (by norm_num) (by norm_num) (by norm_num)
  exact h

/--
C10: when sampling fails (`get_system_metrics` returned the empty dict
because psutil raised), `should_throttle_processing` returns `true`
without raising and without touching the breaker state — the monitor
fails safe toward throttling.
-/
theorem C10_throttle_on_empty_metrics (m : ResourceMonitor) (fr : Bool) (now : ℚ) :
    should_throttle_processing m none fr now = (true, m) := rfl

/-! ## Persistence: C7 -/

/-- The URL key used by the duplicate check equals the URL column of
the row prepared for insertion. -/
theorem orDefault_empty_eq_getD (o : Option String) : orDefault o "" = o.getD "" := by
  cases o with
  | none => rfl
  | some s =>
    by_cases h : s = "" <;> simp [orDefault, h]

/--
Counterexample to C7 as stated: persisting the same record twice, the
second call returns `False` — the same value `save_policy` uses for its
failure paths (non-dict input, insert failure, exceptions) — so the
duplicate is reported exactly like a failure; only the "store count
unchanged" half of the claim holds (the second component is the
unchanged one-row store).
-/
theorem C7_counterexample :
    save_policy (save_policy [] { title := some "T", policy_url := some "https://u" }).2
        { title := some "T", policy_url := some "https://u" } =
      (false, (save_policy [] { title := some "T", policy_url := some "https://u" }).2) := by
  decide

/--
C7 (amended): persisting a record whose `policy_url` is already present
leaves the `policy_updates` table unchanged and raises nothing, but
`save_policy` reports it with the same `False` result as its failure
paths; in particular a second persistence attempt of any record is such
a no-op returning `False`.
-/
theorem C7_duplicate_second_save_noop (store : List PolicyRow) (p : ScrapedPolicy) :
    save_policy (save_policy store p).2 p = (false, (save_policy store p).2) := by
  unfold save_policy
  by_cases h : store.any (fun r => r.policy_url == p.policy_url.getD "") = true
  · simp [h]
  · simp only [Bool.not_eq_true] at h
    simp [h, List.any_append, orDefault_empty_eq_getD]

/-! ## Progress tracker lemmas -/

/-- Looking up a key right after writing it yields the written value. -/
theorem lookup_setTask_self (s : TrackerState) (id : String) (p : ProgressUpdate) :
    lookupTask (setTask s id p) id = some p := by
  induction s with
  | nil => simp [setTask, lookupTask]
  | cons kv rest ih =>
    obtain ⟨k, q⟩ := kv
    by_cases h : k == id
    · simp [setTask, h, lookupTask]
    · simp only [setTask, h, Bool.false_eq_true, if_false, lookupTask, ih]

/-- Writing one key leaves other keys' lookups unchanged. -/
theorem lookup_setTask_other (s : TrackerState) (id k : String) (p : ProgressUpdate)
    (h : (k == id) = false) :
    lookupTask (setTask s id p) k = lookupTask s k := by
  have hne : ¬ id = k := by
    intro hh
    simp [hh] at h
  induction s with
  | nil => simp [setTask, lookupTask, hne]
  | cons kv rest ih =>
    obtain ⟨k', q⟩ := kv
    by_cases h' : (k' == id) = true
    · have hk : k' = id := by simpa using h'
      subst hk
      simp [setTask, lookupTask, hne]
    · have h'' : (k' == id) = false := by simpa using h'
      simp only [setTask, h'', Bool.false_eq_true, if_false, lookupTask, ih]

/-- Members of the map after a write: the written pair or an old one. -/
theorem mem_setTask (s : TrackerState) (id : String) (p : ProgressUpdate)
    (pr : String × ProgressUpdate) (h : pr ∈ setTask s id p) :
    pr = (id, p) ∨ pr ∈ s := by
  induction s with
  | nil =>
    simp only [setTask, List.mem_singleton] at h
    exact Or.inl h
  | cons kv rest ih =>
    obtain ⟨k, q⟩ := kv
    by_cases hk : k == id
    · simp only [setTask, hk, if_true] at h
      rcases List.mem_cons.mp h with h1 | h1
      · exact Or.inl h1
      · exact Or.inr (List.mem_cons_of_mem _ h1)
    · simp only [setTask, hk, Bool.false_eq_true, if_false] at h
      rcases List.mem_cons.mp h with h1 | h1
      · exact Or.inr (h1 ▸ List.mem_cons_self _ _)
      · rcases ih h1 with h2 | h2
        · exact Or.inl h2
        · exact Or.inr (List.mem_cons_of_mem _ h2)

/-- A successful lookup comes from a stored pair under that key. -/
theorem lookupTask_mem (s : TrackerState) (id : String) (p : ProgressUpdate)
    (h : lookupTask s id = some p) : (id, p) ∈ s := by
  induction s with
  | nil => simp [lookupTask] at h
  | cons kv rest ih =>
    obtain ⟨k, q⟩ := kv
    by_cases hk : k == id
    · have hke : k = id := by simpa using hk
      simp only [lookupTask, hk, if_true, Option.some.injEq] at h
      exact hke ▸ h ▸ List.mem_cons_self _ _
    · simp only [lookupTask, hk, Bool.false_eq_true, if_false] at h
      exact List.mem_cons_of_mem _ (ih h)

/-- Shape of `update_progress` on a present task: the stored record
carries the passed counter and status, the task's old total and start
time. -/
theorem update_progress_spec (s : TrackerState) (id item : String) (items : Int)
    (st : String) (dt : Option (List (String × String))) (now : ℚ)
    (p : ProgressUpdate) (h : lookupTask s id = some p) :
    ∃ p2, update_progress s id item items st dt now = (some p2, setTask s id p2) ∧
      p2.items_processed = items ∧ p2.items_total = p.items_total ∧
      p2.status = st ∧ p2.start_time = p.start_time := by
  unfold update_progress
  rw [h]
  dsimp only
  split
  · exact ⟨_, rfl, rfl, rfl, rfl, rfl⟩
  · exact ⟨_, rfl, rfl, rfl, rfl, rfl⟩

/-- Shape of `complete_task` on a present task. -/
theorem complete_task_spec (s : TrackerState) (id : String) (success : Bool)
    (msg : Option String) (p : ProgressUpdate) (h : lookupTask s id = some p) :
    ∃ p1, complete_task s id success msg = (some p1, setTask s id p1) ∧
      p1.status = (if success then "completed" else "failed") ∧
      p1.items_processed = (if success then p.items_total else p.items_processed) ∧
      p1.items_total = p.items_total := by
  unfold complete_task
  rw [h]
  exact ⟨_, rfl, rfl, rfl, rfl⟩

/-- Inversion of the discipline condition for `update`. -/
theorem okOp_update_elim (s : TrackerState) (id item : String) (items : Int) (now : ℚ)
    (h : okOp s (.update id item items now) = true) :
    ∃ p, lookupTask s id = some p ∧ isTerminalStatus p.status = false ∧
      items ≤ p.items_total := by
  simp only [okOp] at h
  cases hm : lookupTask s id with
  | none => rw [hm] at h; simp at h
  | some p =>
    rw [hm] at h
    simp only [Bool.and_eq_true, Bool.not_eq_true', decide_eq_true_eq] at h
    exact ⟨p, rfl, h.1, h.2⟩

/-- Inversion of the discipline condition for `complete`. -/
theorem okOp_complete_elim (s : TrackerState) (id : String) (success : Bool)
    (msg : Option String) (h : okOp s (.complete id success msg) = true) :
    ∃ p, lookupTask s id = some p ∧ isTerminalStatus p.status = false := by
  simp only [okOp] at h
  cases hm : lookupTask s id with
  | none => rw [hm] at h; simp at h
  | some p =>
    rw [hm] at h
    simp only [Bool.not_eq_true'] at h
    exact ⟨p, rfl, h⟩

/-- Inversion of the discipline condition for `start`. -/
theorem okOp_start_elim (s : TrackerState) (id : String) (total : Int) (now : ℚ)
    (h : okOp s (.start id total now) = true) :
    lookupTask s id = none ∧ 0 ≤ total := by
  simp only [okOp, Bool.and_eq_true, Option.isNone_iff_eq_none, decide_eq_true_eq] at h
  exact h

/-- A non-terminal status sits at rank 0 or 1. -/
theorem statusRank_le_one (st : String) (h : isTerminalStatus st = false) :
    statusRank st ≤ 1 := by
  unfold statusRank
  split
  · omega
  · split
    · omega
    · split
      · next hterm => rw [h] at hterm; exact absurd hterm (by simp)
      · omega

/-- Every status rank is at most 2. -/
theorem statusRank_le_two (st : String) : statusRank st ≤ 2 := by
  unfold statusRank
  split
  · omega
  · split
    · omega
    · split <;> omega

/-- One disciplined operation preserves the counter invariant. -/
theorem step_items (s : TrackerState) (op : TrackerOp) (hInv : ItemsInv s)
    (hok : okOp s op = true) : ItemsInv (applyOp s op) := by
  cases op with
  | start id total now =>
    obtain ⟨-, htot⟩ := okOp_start_elim s id total now hok
    intro pr hpr
    rcases mem_setTask _ _ _ _ hpr with h1 | h1
    · subst h1; simpa using htot
    · exact hInv pr h1
  | update id item items now =>
    obtain ⟨p, hp, -, hle⟩ := okOp_update_elim s id item items now hok
    obtain ⟨p2, heq, hitems, htot, -, -⟩ :=
      update_progress_spec s id item items "processing" none now p hp
    intro pr hpr
    simp only [applyOp, heq] at hpr
    rcases mem_setTask _ _ _ _ hpr with h1 | h1
    · subst h1; simpa [hitems, htot] using hle
    · exact hInv pr h1
  | complete id success msg =>
    obtain ⟨p, hp, -⟩ := okOp_complete_elim s id success msg hok
    obtain ⟨p1, heq, -, hitems, htot⟩ := complete_task_spec s id success msg p hp
    intro pr hpr
    simp only [applyOp, heq] at hpr
    rcases mem_setTask _ _ _ _ hpr with h1 | h1
    · subst h1
      simp only [hitems, htot]
      cases success with
      | true => simp
      | false => simpa using hInv (id, p) (lookupTask_mem s id p hp)
    · exact hInv pr h1

/-- One disciplined operation only moves statuses forward. -/
theorem step_rank (s : TrackerState) (op : TrackerOp)
    (hok : okOp s op = true) : RankMono s (applyOp s op) := by
  cases op with
  | start id total now =>
    obtain ⟨hnone, -⟩ := okOp_start_elim s id total now hok
    intro id' p q hp hq
    by_cases hid : (id' == id) = true
    · have hide : id' = id := by simpa using hid
      subst hide
      rw [hnone] at hp
      exact Option.noConfusion hp
    · have hid' : (id' == id) = false := by simpa using hid
      simp only [applyOp, start_task] at hq
      rw [lookup_setTask_other _ _ _ _ hid'] at hq
      rw [hp] at hq
      rw [Option.some_inj.mp hq]
  | update id item items now =>
    obtain ⟨p0, hp0, hterm, -⟩ := okOp_update_elim s id item items now hok
    obtain ⟨p2, heq, -, -, hst, -⟩ :=
      update_progress_spec s id item items "processing" none now p0 hp0
    intro id' p q hp hq
    simp only [applyOp, heq] at hq
    by_cases hid : (id' == id) = true
    · have hide : id' = id := by simpa using hid
      subst hide
      have hpe : p = p0 := by rw [hp0] at hp; exact (Option.some_inj.mp hp).symm
      have hqe : q = p2 := by rw [lookup_setTask_self] at hq; exact (Option.some_inj.mp hq).symm
      rw [hpe, hqe, hst]
      have h2 : statusRank "processing" = 1 := by decide
      rw [h2]
      exact statusRank_le_one _ hterm
    · have hid' : (id' == id) = false := by simpa using hid
      rw [lookup_setTask_other _ _ _ _ hid'] at hq
      rw [hp] at hq
      rw [Option.some_inj.mp hq]
  | complete id success msg =>
    obtain ⟨p0, hp0, -⟩ := okOp_complete_elim s id success msg hok
    obtain ⟨p1, heq, hst, -, -⟩ := complete_task_spec s id success msg p0 hp0
    intro id' p q hp hq
    simp only [applyOp, heq] at hq
    by_cases hid : (id' == id) = true
    · have hide : id' = id := by simpa using hid
      subst hide
      have hqe : q = p1 := by rw [lookup_setTask_self] at hq; exact (Option.some_inj.mp hq).symm
      rw [hqe, hst]
      have h2 : statusRank (if success then "completed" else "failed") = 2 := by
        cases success <;> decide
      rw [h2]
      exact statusRank_le_two _
    · have hid' : (id' == id) = false := by simpa using hid
      rw [lookup_setTask_other _ _ _ _ hid'] at hq
      rw [hp] at hq
      rw [Option.some_inj.mp hq]

/-- The trace of a run always begins with the starting state. -/
theorem traceStates_head (s : TrackerState) (ops : List TrackerOp) :
    (traceStates s ops).head? = some s := by
  cases ops <;> rfl

/-- Generalized invariant: from any state satisfying the counter
invariant, a disciplined run keeps it at every step and moves statuses
only forward. -/
theorem disciplined_run_invariant (ops : List TrackerOp) :
    ∀ s : TrackerState, ItemsInv s → Disciplined s ops = true →
      (∀ st ∈ traceStates s ops, ItemsInv st) ∧
      List.Chain' RankMono (traceStates s ops) := by
  induction ops with
  | nil =>
    intro s hInv _
    refine ⟨?_, by simp [traceStates]⟩
    intro st hst
    simp only [traceStates, List.mem_singleton] at hst
    exact hst ▸ hInv
  | cons op ops ih =>
    intro s hInv hd
    simp only [Disciplined, Bool.and_eq_true] at hd
    obtain ⟨hok, hd'⟩ := hd
    have hInv' : ItemsInv (applyOp s op) := step_items s op hInv hok
    obtain ⟨hAll, hChain⟩ := ih (applyOp s op) hInv' hd'
    refine ⟨?_, ?_⟩
    · intro st hst
      simp only [traceStates, List.mem_cons] at hst
      rcases hst with h1 | h1
      · exact h1 ▸ hInv
      · exact hAll st h1
    · show List.Chain' RankMono (s :: traceStates (applyOp s op) ops)
      rw [List.chain'_cons']
      refine ⟨?_, hChain⟩
      intro b hb
      rw [traceStates_head] at hb
      cases hb
      exact step_rank s op hok

/-! ## Progress tracker: C2, C6 -/

/--
Counterexample to C2 as stated: from an empty tracker, the operation
sequence `start_task('t', 1)`, `complete_task('t', success=True)`,
`update_progress('t', 'x', 5)` first stores the terminal record
(1, 1, "completed") and then stores (5, 1, "processing"): the terminal
status is overwritten and `items_processed = 5` exceeds
`items_total = 1`, because `update_progress` neither clamps the counter
nor guards terminal states.
-/
theorem C2_counterexample :
    storedItems c2MidState "t" = some (1, 1, "completed") ∧
    storedItems c2RunState "t" = some (5, 1, "processing") ∧
    ¬((5 : Int) ≤ 1) := by
  refine ⟨by decide, by decide, by decide⟩

/--
C2 (amended): the stored invariant `items_processed ≤ items_total` and
forward-only status movement hold for every sequence of operations under
caller discipline — each task is started once with a non-negative total,
every `update_progress` call uses the default `processing` status and
passes `items_processed ≤ items_total`, and no operation targets a task
already in a terminal state.  The code itself enforces none of this:
`update_progress` overwrites both counter and status unconditionally.
-/
theorem C2_disciplined_invariant (ops : List TrackerOp)
    (h : Disciplined [] ops = true) :
    (∀ st ∈ traceStates [] ops, ItemsInv st) ∧
    List.Chain' RankMono (traceStates [] ops) :=
  disciplined_run_invariant ops [] (by intro pr hpr; cases hpr) h

/-- Witness for C2 (amended) on a concrete disciplined run. -/
theorem C2_disciplined_invariant_witness :
    Disciplined [] [.start "t" 2 0, .update "t" "a" 1 1, .complete "t" true none] = true ∧
    ((∀ st ∈ traceStates []
        [.start "t" 2 0, .update "t" "a" 1 1, .complete "t" true none], ItemsInv st) ∧
     List.Chain' RankMono (traceStates []
        [.start "t" 2 0, .update "t" "a" 1 1, .complete "t" true none])) :=
  ⟨by decide, C2_disciplined_invariant _ (by decide)⟩

/-- On a present task, a sequence of `update_progress` calls stores
exactly the passed counters, in order. -/
theorem updateItemsTrace_eq (calls : List (String × Int × ℚ)) :
    ∀ (s : TrackerState) (id : String) (p : ProgressUpdate),
      lookupTask s id = some p →
      updateItemsTrace s id calls = calls.map (fun c => c.2.1) := by
  induction calls with
  | nil => intro s id p _; rfl
  | cons c rest ih =>
    intro s id p h
    obtain ⟨item, items, now⟩ := c
    obtain ⟨p2, heq, hitems, -, -, -⟩ :=
      update_progress_spec s id item items "processing" none now p h
    simp only [updateItemsTrace, heq, lookup_setTask_self, hitems, List.map_cons]
    exact congrArg _ (ih _ id p2 (lookup_setTask_self s id p2))

/--
C6: on every tracked task, `complete_task(taskId, success=True)` stores
status `completed` with `items_processed` forced to `items_total`; and
a sequence of `update_progress` calls passing nondecreasing
`items_processed` values leaves a stored `items_processed` trace that
never decreases.
-/
theorem C6_complete_forces_total_and_updates_monotone :
    (∀ (s : TrackerState) (id : String) (msg : Option String) (p : ProgressUpdate),
       lookupTask s id = some p →
       storedItems (complete_task s id true msg).2 id =
         some (p.items_total, p.items_total, "completed")) ∧
    (∀ (s : TrackerState) (id : String) (p : ProgressUpdate)
       (calls : List (String × Int × ℚ)),
       lookupTask s id = some p →
       List.Chain' (fun a b => a.2.1 ≤ b.2.1) calls →
       List.Chain' (fun a b : Int => a ≤ b) (updateItemsTrace s id calls)) := by
  constructor
  · intro s id msg p h
    obtain ⟨p1, heq, hst, hitems, htot⟩ := complete_task_spec s id true msg p h
    simp only [if_true] at hst hitems
    simp only [heq, storedItems, lookup_setTask_self, hst, hitems, htot]
  · intro s id p calls h hchain
    rw [updateItemsTrace_eq calls s id p h]
    exact (List.chain'_map _).mpr hchain

/-- Witness for C6 on a concrete task with total 3 and two increasing
updates. -/
theorem C6_complete_forces_total_and_updates_monotone_witness :
    storedItems (complete_task (start_task [] "t" 3 0).2 "t" true none).2 "t" =
      some (3, 3, "completed") ∧
    List.Chain' (fun a b : Int => a ≤ b)
      (updateItemsTrace (start_task [] "t" 3 0).2 "t" [("a", 1, 1), ("b", 2, 2)]) := by
  constructor
  · exact C6_complete_forces_total_and_updates_monotone.1
      (start_task [] "t" 3 0).2 "t" none (start_task [] "t" 3 0).1 (by decide)
  · exact C6_complete_forces_total_and_updates_monotone.2
      (start_task [] "t" 3 0).2 "t" (start_task [] "t" 3 0).1 [("a", 1, 1), ("b", 2, 2)]
      (by decide) (by norm_num [List.chain'_cons, List.chain'_singleton])

/-! ## Data validator: C9 -/

/--
Counterexample to C9 as stated: the record `{title := "abc", url := ""}`
has a title of length 3 and indeed gets the "Title seems too short"
warning, but `is_valid` is `false` (the missing URL is an error), so
"isValid remains true" does not hold for every record with a
three-character title.
-/
theorem C9_counterexample :
    (DataValidator.validate_policy_data { title := "abc", url := "" }).is_valid = false ∧
    "Title seems too short" ∈
      (DataValidator.validate_policy_data { title := "abc", url := "" }).warnings ∧
    ("abc" : String).length = 3 := by
  refine ⟨by decide, by decide, by decide⟩

/--
C9 (amended): a record whose title has length 3 always receives the
"Title seems too short" warning, and `is_valid` remains `true` provided
the record's other required checks pass (a present, well-formed URL);
a record with no title at all is marked invalid with the
"Missing required field: title" error.
-/
theorem C9_short_title_warns_missing_title_errors :
    (∀ data : PolicyData, data.title.length = 3 →
       "Title seems too short" ∈ (DataValidator.validate_policy_data data).warnings) ∧
    (∀ data : PolicyData, data.title.length = 3 → data.url ≠ "" →
       is_valid_url data.url = true →
       (DataValidator.validate_policy_data data).is_valid = true) ∧
    (∀ data : PolicyData, data.title = "" →
       (DataValidator.validate_policy_data data).is_valid = false ∧
       "Missing required field: title" ∈
         (DataValidator.validate_policy_data data).errors) := by
  refine ⟨?_, ?_, ?_⟩
  · intro data hlen
    have ht : ¬ data.title = "" := by
      intro h
      rw [h] at hlen
      simp at hlen
    simp [DataValidator.validate_policy_data, ht, hlen]
  · intro data hlen hurl hvalid
    have ht : ¬ data.title = "" := by
      intro h
      rw [h] at hlen
      simp at hlen
    simp [DataValidator.validate_policy_data, ht, hurl, hvalid]
  · intro data ht
    constructor
    · simp only [DataValidator.validate_policy_data, ht]
      split <;> simp
    · simp [DataValidator.validate_policy_data, ht]

/-- Witness for C9 (amended) at concrete records: title `"abc"` with a
well-formed URL stays valid with the short-title warning; the record
with no title is invalid with the missing-field error. -/
theorem C9_short_title_warns_missing_title_errors_witness :
    ("abc" : String).length = 3 ∧
    ("Title seems too short" ∈ (DataValidator.validate_policy_data
        { title := "abc", url := "https://www.cigna.com/x" }).warnings) ∧
    (DataValidator.validate_policy_data
        { title := "abc", url := "https://www.cigna.com/x" }).is_valid = true ∧
    (DataValidator.validate_policy_data { url := "https://www.cigna.com/x" }).is_valid = false ∧
    "Missing required field: title" ∈
      (DataValidator.validate_policy_data { url := "https://www.cigna.com/x" }).errors := by
  refine ⟨by decide,
    C9_short_title_warns_missing_title_errors.1
      { title := "abc", url := "https://www.cigna.com/x" } (by decide),
    C9_short_title_warns_missing_title_errors.2.1
      { title := "abc", url := "https://www.cigna.com/x" } (by decide) (by decide) (by decide),
    (C9_short_title_warns_missing_title_errors.2.2
      { url := "https://www.cigna.com/x" } (by decide)).1,
    (C9_short_title_warns_missing_title_errors.2.2
      { url := "https://www.cigna.com/x" } (by decide)).2⟩

/-! ## Cleaning lemmas (towards C5) -/

/-- `dropWhile` is idempotent. -/
theorem dropWhile_dropWhile_same (p : Char → Bool) (l : List Char) :
    (l.dropWhile p).dropWhile p = l.dropWhile p := by
  induction l with
  | nil => rfl
  | cons c cs ih =>
    by_cases h : p c
    · simp [List.dropWhile_cons, h, ih]
    · simp [List.dropWhile_cons, h]

/-- `dropWhile` removes a leading block. -/
theorem exists_append_dropWhile (p : Char → Bool) (l : List Char) :
    ∃ t, l = t ++ l.dropWhile p := by
  induction l with
  | nil => exact ⟨[], rfl⟩
  | cons c cs ih =>
    by_cases h : p c
    · obtain ⟨t, ht⟩ := ih
      refine ⟨c :: t, ?_⟩
      simp only [List.dropWhile_cons, h, if_true, List.cons_append]
      exact congrArg _ ht
    · exact ⟨[], by simp [List.dropWhile_cons, h]⟩

/-- The head surviving `dropWhile` fails the predicate. -/
theorem head_dropWhile_false (p : Char → Bool) (l : List Char) :
    ∀ c, (l.dropWhile p).head? = some c → p c = false := by
  induction l with
  | nil => intro c h; simp at h
  | cons c0 cs ih =>
    intro c h
    by_cases hp : p c0
    · rw [List.dropWhile_cons, if_pos hp] at h
      exact ih c h
    · rw [List.dropWhile_cons, if_neg hp] at h
      simp only [List.head?_cons, Option.some.injEq] at h
      subst h
      exact Bool.eq_false_iff.mpr hp

/-- `dropWhile` is the identity when the head already fails. -/
theorem dropWhile_eq_self_of_head (p : Char → Bool) (l : List Char)
    (h : ∀ c, l.head? = some c → p c = false) : l.dropWhile p = l := by
  cases l with
  | nil => rfl
  | cons c cs => simp [List.dropWhile_cons, h c rfl]

/-- The head of a left factor is the head of the whole list. -/
theorem head_append_left {α : Type} (r t : List α) (c : α) (h : r.head? = some c) :
    (r ++ t).head? = some c := by
  cases r with
  | nil => simp at h
  | cons a r' => simpa using h

/-- Python `strip` is idempotent. -/
theorem pyStripList_idem (l : List Char) :
    pyStripList (pyStripList l) = pyStripList l := by
  have F1 : (pyStripList l).dropWhile pySpace = pyStripList l := by
    apply dropWhile_eq_self_of_head
    intro c hc
    obtain ⟨t, ht⟩ := exists_append_dropWhile pySpace (l.dropWhile pySpace).reverse
    have hm : l.dropWhile pySpace = pyStripList l ++ t.reverse := by
      have := congrArg List.reverse ht
      simpa [pyStripList, List.reverse_append] using this
    have hh : (l.dropWhile pySpace).head? = some c := by
      rw [hm]
      exact head_append_left _ _ _ hc
    exact head_dropWhile_false pySpace l c hh
  show ((((pyStripList l).dropWhile pySpace).reverse).dropWhile pySpace).reverse = pyStripList l
  rw [F1]
  have F2 : (pyStripList l).reverse = (l.dropWhile pySpace).reverse.dropWhile pySpace := by
    simp [pyStripList]
  rw [F2, dropWhile_dropWhile_same]
  simp [pyStripList]

/-- `Char.ofNat` below the surrogate range round-trips through `toNat`. -/
theorem char_toNat_ofNat_lt (n : Nat) (h : n < 0xd800) :
    (Char.ofNat n).toNat = n := by
  rw [Char.ofNat, dif_pos (Or.inl h : Nat.isValidChar n)]
  rfl

/-- Characters are equal when their codepoints are. -/
theorem char_eq_of_toNat_eq {a b : Char} (h : a.toNat = b.toNat) : a = b := by
  apply Char.ext
  exact UInt32.toNat.inj h

/-- Printable characters above space are not Python whitespace. -/
theorem pySpace_false_of_range (c : Char) (h1 : 33 ≤ c.toNat) (h2 : c.toNat ≤ 126) :
    pySpace c = false := by
  rw [Bool.eq_false_iff]
  intro hws
  simp only [pySpace, Bool.or_eq_true, Bool.and_eq_true, decide_eq_true_eq,
    beq_iff_eq] at hws
  omega

/-- Printable characters are not in the control class. -/
theorem ctrlChar_false_of_range (c : Char) (h1 : 32 ≤ c.toNat) (h2 : c.toNat ≤ 126) :
    ctrlChar c = false := by
  rw [Bool.eq_false_iff]
  intro hct
  simp only [ctrlChar, Bool.or_eq_true, Bool.and_eq_true, decide_eq_true_eq] at hct
  omega

/-- The codepoint of `Char.toUpper`. -/
theorem toUpper_toNat (c : Char) :
    c.toUpper.toNat = if 97 ≤ c.toNat ∧ c.toNat ≤ 122 then c.toNat - 32 else c.toNat := by
  unfold Char.toUpper
  by_cases h : c.toNat ≥ 97 ∧ c.toNat ≤ 122
  · rw [if_pos h, if_pos ⟨h.1, h.2⟩]
    exact char_toNat_ofNat_lt _ (by omega)
  · rw [if_neg h, if_neg (by omega)]

/-- `Char.toUpper` is idempotent. -/
theorem toUpper_idem (c : Char) : c.toUpper.toUpper = c.toUpper := by
  apply char_eq_of_toNat_eq
  rw [toUpper_toNat, toUpper_toNat]
  split_ifs <;> omega

/-- `Char.toUpper` maps whitespace to whitespace and back. -/
theorem toUpper_pySpace (c : Char) : pySpace c.toUpper = pySpace c := by
  by_cases h : 97 ≤ c.toNat ∧ c.toNat ≤ 122
  · have hu : c.toUpper.toNat = c.toNat - 32 := by rw [toUpper_toNat, if_pos h]
    rw [pySpace_false_of_range _ (by omega) (by omega),
      pySpace_false_of_range c (by omega) (by omega)]
  · have hu : c.toUpper = c := by
      apply char_eq_of_toNat_eq
      rw [toUpper_toNat, if_neg h]
    rw [hu]

/-- `dropWhile` commutes with mapping a predicate-preserving function. -/
theorem dropWhile_map_comm (f : Char → Char) (p : Char → Bool)
    (hp : ∀ c, p (f c) = p c) (l : List Char) :
    (l.map f).dropWhile p = (l.dropWhile p).map f := by
  induction l with
  | nil => rfl
  | cons c cs ih =>
    by_cases h : p c
    · simp [List.dropWhile_cons, hp c, h, ih]
    · simp [List.dropWhile_cons, hp c, h]

/-- `strip` commutes with mapping a whitespace-preserving function. -/
theorem pyStripList_map_comm (f : Char → Char) (hp : ∀ c, pySpace (f c) = pySpace c)
    (l : List Char) : pyStripList (l.map f) = (pyStripList l).map f := by
  unfold pyStripList
  rw [dropWhile_map_comm f pySpace hp, ← List.map_reverse,
    dropWhile_map_comm f pySpace hp, ← List.map_reverse]

/-- Characters of a collapsed list: the inserted spaces, or original
non-whitespace characters. -/
theorem mem_collapseWS (l : List Char) :
    ∀ c ∈ collapseWS l, c = ' ' ∨ (c ∈ l ∧ pySpace c = false) := by
  induction l with
  | nil => intro c hc; simp [collapseWS] at hc
  | cons c1 tail ih =>
    cases tail with
    | nil =>
      intro c hc
      by_cases h : pySpace c1 = true
      · simp only [collapseWS, h, if_true, List.mem_singleton] at hc
        exact Or.inl hc
      · simp only [collapseWS, h, Bool.false_eq_true, if_false, List.mem_singleton] at hc
        subst hc
        exact Or.inr ⟨List.mem_singleton_self _, Bool.eq_false_iff.mpr h⟩
    | cons c2 cs =>
      intro c hc
      by_cases h12 : (pySpace c1 && pySpace c2) = true
      · rw [show collapseWS (c1 :: c2 :: cs) = collapseWS (c2 :: cs) from by
          simp [collapseWS, h12]] at hc
        rcases ih c hc with h1 | ⟨h1, h2⟩
        · exact Or.inl h1
        · exact Or.inr ⟨List.mem_cons_of_mem _ h1, h2⟩
      · rw [show collapseWS (c1 :: c2 :: cs) =
            (if pySpace c1 then ' ' else c1) :: collapseWS (c2 :: cs) from by
          simp [collapseWS, h12]] at hc
        rcases List.mem_cons.mp hc with h1 | h1
        · by_cases hw : pySpace c1 = true
          · rw [if_pos hw] at h1
            exact Or.inl h1
          · rw [if_neg hw] at h1
            subst h1
            exact Or.inr ⟨List.mem_cons_self _ _, Bool.eq_false_iff.mpr hw⟩
        · rcases ih c h1 with h2 | ⟨h2, h3⟩
          · exact Or.inl h2
          · exact Or.inr ⟨List.mem_cons_of_mem _ h2, h3⟩

/-- A collapsed list starting with a non-whitespace character keeps it
as its head. -/
theorem head_collapseWS (c : Char) (cs : List Char) (h : pySpace c = false) :
    (collapseWS (c :: cs)).head? = some c := by
  cases cs with
  | nil => simp [collapseWS, h]
  | cons c2 cs' => simp [collapseWS, h]

/-- A collapsed list never has two adjacent whitespace characters. -/
theorem chain_collapseWS (l : List Char) :
    List.Chain' (fun a b => pySpace a = false ∨ pySpace b = false) (collapseWS l) := by
  induction l with
  | nil => simp [collapseWS]
  | cons c1 tail ih =>
    cases tail with
    | nil => by_cases h : pySpace c1 = true <;> simp [collapseWS, h]
    | cons c2 cs =>
      by_cases h12 : (pySpace c1 && pySpace c2) = true
      · rw [show collapseWS (c1 :: c2 :: cs) = collapseWS (c2 :: cs) from by
          simp [collapseWS, h12]]
        exact ih
      · rw [show collapseWS (c1 :: c2 :: cs) =
            (if pySpace c1 then ' ' else c1) :: collapseWS (c2 :: cs) from by
          simp [collapseWS, h12]]
        rw [List.chain'_cons']
        refine ⟨?_, ih⟩
        intro b hb
        by_cases h1 : pySpace c1 = true
        · have h2 : pySpace c2 = false := by
            rw [Bool.eq_false_iff]
            intro h2t
            exact h12 (by rw [h1, h2t]; rfl)
          rw [head_collapseWS c2 cs h2] at hb
          simp only [Option.mem_def, Option.some.injEq] at hb
          subst hb
          exact Or.inr h2
        · rw [if_neg h1]
          exact Or.inl (Bool.eq_false_iff.mpr h1)

/-- Collapsing is the identity on lists whose whitespace is all plain
spaces with no two adjacent. -/
theorem collapseWS_eq_self (l : List Char)
    (hsp : ∀ c ∈ l, pySpace c = true → c = ' ')
    (hch : List.Chain' (fun a b => pySpace a = false ∨ pySpace b = false) l) :
    collapseWS l = l := by
  induction l with
  | nil => rfl
  | cons c1 tail ih =>
    cases tail with
    | nil =>
      by_cases h : pySpace c1 = true
      · have hc1 : c1 = ' ' := hsp c1 (List.mem_singleton_self _) h
        simp [collapseWS, h, hc1]
      · simp [collapseWS, h]
    | cons c2 cs =>
      have hR := (List.chain'_cons.mp hch).1
      have hch' := (List.chain'_cons.mp hch).2
      have h12 : (pySpace c1 && pySpace c2) = false := by
        rcases hR with h | h <;> simp [h]
      have ihtail := ih (fun c hc hw => hsp c (List.mem_cons_of_mem _ hc) hw) hch'
      by_cases h1 : pySpace c1 = true
      · have hc1 : c1 = ' ' := hsp c1 (List.mem_cons_self _ _) h1
        rw [show collapseWS (c1 :: c2 :: cs) =
            (if pySpace c1 then ' ' else c1) :: collapseWS (c2 :: cs) from by
          simp [collapseWS, h12]]
        rw [ihtail, if_pos h1, hc1]
      · rw [show collapseWS (c1 :: c2 :: cs) =
            (if pySpace c1 then ' ' else c1) :: collapseWS (c2 :: cs) from by
          simp [collapseWS, h12]]
        rw [ihtail, if_neg h1]

/-- Stripping preserves adjacency constraints (for symmetric relations). -/
theorem chain_pyStripList (R : Char → Char → Prop) (hsymm : ∀ a b, R a b → R b a)
    (l : List Char) (h : List.Chain' R l) : List.Chain' R (pyStripList l) := by
  have hdw : ∀ m : List Char, List.Chain' R m → List.Chain' R (m.dropWhile pySpace) := by
    intro m hm
    obtain ⟨t, ht⟩ := exists_append_dropWhile pySpace m
    rw [ht] at hm
    exact (List.chain'_append.mp hm).2.1
  have hrev : ∀ m : List Char, List.Chain' R m → List.Chain' R m.reverse := by
    intro m hm
    rw [List.chain'_reverse]
    exact hm.imp (fun a b hab => hsymm a b hab)
  exact hrev _ (hdw _ (hrev _ (hdw _ h)))

/-- Stripping keeps only original characters. -/
theorem mem_pyStripList (l : List Char) (c : Char) (h : c ∈ pyStripList l) : c ∈ l := by
  unfold pyStripList at h
  rw [List.mem_reverse] at h
  obtain ⟨t2, ht2⟩ := exists_append_dropWhile pySpace (l.dropWhile pySpace).reverse
  have h1 : c ∈ (l.dropWhile pySpace).reverse := by
    rw [ht2]
    exact List.mem_append_right _ h
  rw [List.mem_reverse] at h1
  obtain ⟨t1, ht1⟩ := exists_append_dropWhile pySpace l
  rw [ht1]
  exact List.mem_append_right _ h1

/-- `str.strip` is idempotent on strings. -/
theorem pyStrip_idem (t : String) : pyStrip (pyStrip t) = pyStrip t :=
  congrArg String.mk (pyStripList_idem t.data)

/-- `DataValidator._clean_text` is idempotent on strings whose control
characters (if any) are all whitespace. -/
theorem clean_text_idem (s : String)
    (h : ∀ c ∈ s.data, ctrlChar c = true → pySpace c = true) :
    DataValidator.clean_text (DataValidator.clean_text s) =
      DataValidator.clean_text s := by
  have hnoctrl : ∀ c ∈ collapseWS s.data, ctrlChar c = false := by
    intro c hc
    rcases mem_collapseWS s.data c hc with h1 | ⟨h1, h2⟩
    · rw [h1]; decide
    · rw [Bool.eq_false_iff]
      intro hct
      rw [h c h1 hct] at h2
      simp at h2
  have hfil : removeCtrlChars (collapseWS s.data) = collapseWS s.data := by
    unfold removeCtrlChars
    apply List.filter_eq_self.mpr
    intro a ha
    simp [hnoctrl a ha]
  have hct1 : DataValidator.clean_text s = ⟨pyStripList (collapseWS s.data)⟩ := by
    unfold DataValidator.clean_text
    rw [hfil]
  have hmemr : ∀ c ∈ pyStripList (collapseWS s.data), ctrlChar c = false :=
    fun c hc => hnoctrl c (mem_pyStripList _ c hc)
  have hcoll : collapseWS (pyStripList (collapseWS s.data)) =
      pyStripList (collapseWS s.data) := by
    apply collapseWS_eq_self
    · intro c hc hw
      rcases mem_collapseWS s.data c (mem_pyStripList _ c hc) with h1 | ⟨-, h2⟩
      · exact h1
      · rw [hw] at h2; simp at h2
    · exact chain_pyStripList _ (fun a b hab => Or.symm hab) _ (chain_collapseWS s.data)
  have hctrlr : removeCtrlChars (pyStripList (collapseWS s.data)) =
      pyStripList (collapseWS s.data) := by
    unfold removeCtrlChars
    apply List.filter_eq_self.mpr
    intro a ha
    simp [hmemr a ha]
  rw [hct1]
  show (⟨pyStripList (removeCtrlChars (collapseWS (pyStripList (collapseWS s.data))))⟩ :
      String) = ⟨pyStripList (collapseWS s.data)⟩
  rw [hcoll, hctrlr, pyStripList_idem]

/-- `strip().upper()` applied twice equals once. -/
theorem upper_strip_idem (x : String) :
    pyUpper (pyStrip (pyUpper (pyStrip x))) = pyUpper (pyStrip x) := by
  show (⟨(pyStripList ((pyStripList x.data).map Char.toUpper)).map Char.toUpper⟩ : String) = _
  rw [pyStripList_map_comm Char.toUpper toUpper_pySpace, pyStripList_idem,
    List.map_map]
  show (⟨(pyStripList x.data).map (Char.toUpper ∘ Char.toUpper)⟩ : String) = _
  have hthis : Char.toUpper ∘ Char.toUpper = Char.toUpper := by
    funext c
    exact toUpper_idem c
  rw [hthis]
  rfl

/-- The conditional strip of `_clean_data` is idempotent. -/
theorem guard_strip_idem (t : String) :
    (if (if t != "" then pyStrip t else t) != ""
     then pyStrip (if t != "" then pyStrip t else t)
     else if t != "" then pyStrip t else t) = if t != "" then pyStrip t else t := by
  by_cases h : t = ""
  · simp [h]
  · simp only [bne_iff_ne, ne_eq, h, not_false_eq_true, if_true]
    by_cases h2 : pyStrip t = ""
    · simp [h2]
    · simp [h2, pyStrip_idem]

/-- The conditional body cleaning of `_clean_data` is idempotent when
the body's control characters are all whitespace. -/
theorem guard_clean_idem (t : String)
    (h : ∀ c ∈ t.data, ctrlChar c = true → pySpace c = true) :
    (if (if t != "" then DataValidator.clean_text t else t) != ""
     then DataValidator.clean_text (if t != "" then DataValidator.clean_text t else t)
     else if t != "" then DataValidator.clean_text t else t) =
      if t != "" then DataValidator.clean_text t else t := by
  by_cases ht : t = ""
  · simp [ht]
  · simp only [bne_iff_ne, ne_eq, ht, not_false_eq_true, if_true]
    by_cases h2 : DataValidator.clean_text t = ""
    · simp [h2]
    · simp [h2, clean_text_idem t h]

/-- `DataValidator._clean_data` is idempotent when the record's body
text contains no non-whitespace control characters. -/
theorem clean_data_idem (data : PolicyData)
    (h : ∀ c ∈ data.body_content.data, ctrlChar c = true → pySpace c = true) :
    DataValidator.clean_data (DataValidator.clean_data data) =
      DataValidator.clean_data data := by
  unfold DataValidator.clean_data
  simp only [PolicyData.mk.injEq]
  refine ⟨guard_strip_idem data.title, trivial, trivial, guard_strip_idem data.category,
    guard_clean_idem data.body_content h, trivial, ?_, ?_⟩
  · rw [List.map_map]
    apply List.map_congr_left
    intro c _
    simp [Function.comp, upper_strip_idem, pyStrip_idem]
  · rw [List.map_map]
    apply List.map_congr_left
    intro d _
    simp [Function.comp, pyStrip_idem]

/--
Counterexample to C5 as stated: for the record whose body text is
`"a \x01 b"`, the first cleaning pass collapses whitespace before
removing the control character, leaving the double space `"a  b"`; the
second pass collapses that to `"a b"`, so
`validate(validate(x).cleanedRecord).cleanedRecord` differs from
`validate(x).cleanedRecord`.
-/
theorem C5_counterexample :
    (DataValidator.validate_policy_data
        (DataValidator.validate_policy_data c5Record).validated_data).validated_data ≠
      (DataValidator.validate_policy_data c5Record).validated_data := by
  decide

/--
C5 (amended): validator cleaning is a fixed point for every candidate
record whose body text has no non-whitespace control characters —
`validate(validate(x).cleanedRecord).cleanedRecord =
validate(x).cleanedRecord`; a control character flanked by whitespace in
the body breaks the fixed point, because whitespace collapsing runs
before control-character removal.
-/
theorem C5_cleaning_fixed_point (data : PolicyData)
    (h : ∀ c ∈ data.body_content.data, ctrlChar c = true → pySpace c = true) :
    (DataValidator.validate_policy_data
        (DataValidator.validate_policy_data data).validated_data).validated_data =
      (DataValidator.validate_policy_data data).validated_data :=
  clean_data_idem data h

/-- Witness for C5 (amended) at a concrete record. -/
theorem C5_cleaning_fixed_point_witness :
    (∀ c ∈ ("Some  body\ttext here" : String).data, ctrlChar c = true → pySpace c = true) ∧
    (DataValidator.validate_policy_data
        (DataValidator.validate_policy_data
          { title := "Valid Title", url := "https://www.cigna.com/x",
            body_content := "Some  body\ttext here" }).validated_data).validated_data =
      (DataValidator.validate_policy_data
        { title := "Valid Title", url := "https://www.cigna.com/x",
          body_content := "Some  body\ttext here" }).validated_data :=
  ⟨by decide, C5_cleaning_fixed_point
    { title := "Valid Title", url := "https://www.cigna.com/x",
      body_content := "Some  body\ttext here" } (by decide)⟩

/-! ## Medical-code deduplication: C1 -/

/-- An entry surviving deduplication has a key outside `seen`, and is
the first entry with its key in the input list. -/
theorem dedupCodes_spec (l : List MedicalCodeRec) :
    ∀ (seen : List String) (e : MedicalCodeRec), e ∈ dedupCodes l seen →
      codeKey e ∉ seen ∧
      ∃ l1 l2, l = l1 ++ e :: l2 ∧ ∀ x ∈ l1, codeKey x ≠ codeKey e := by
  induction l with
  | nil => intro seen e he; simp [dedupCodes] at he
  | cons c rest ih =>
    intro seen e he
    cases hc : seen.contains (codeKey c) with
    | true =>
      rw [show dedupCodes (c :: rest) seen = dedupCodes rest seen from by
        simp only [dedupCodes, hc, if_true]] at he
      obtain ⟨hnot, l1, l2, hsplit, hne⟩ := ih seen e he
      refine ⟨hnot, c :: l1, l2, by rw [hsplit]; rfl, ?_⟩
      intro x hx
      rcases List.mem_cons.mp hx with h1 | h1
      · subst h1
        intro hkey
        rw [← hkey] at hnot
        exact hnot (by simpa using hc)
      · exact hne x h1
    | false =>
      rw [show dedupCodes (c :: rest) seen =
          c :: dedupCodes rest (codeKey c :: seen) from by
        simp only [dedupCodes, hc, Bool.false_eq_true, if_false]] at he
      rcases List.mem_cons.mp he with h1 | h1
      · subst h1
        refine ⟨?_, [], rest, rfl, by simp⟩
        intro hmem
        have hctr : seen.contains (codeKey e) = true := by simpa using hmem
        rw [hctr] at hc
        exact Bool.noConfusion hc
      · obtain ⟨hnot, l1, l2, hsplit, hne⟩ := ih (codeKey c :: seen) e h1
        have hce : codeKey c ≠ codeKey e := by
          intro hk
          exact hnot (by rw [hk] at *; exact List.mem_cons_self _ _)
        refine ⟨fun hm => hnot (List.mem_cons_of_mem _ hm), c :: l1, l2,
          by rw [hsplit]; rfl, ?_⟩
        intro x hx
        rcases List.mem_cons.mp hx with h2 | h2
        · subst h2; exact hce
        · exact hne x h2

/-- The surviving keys are pairwise distinct. -/
theorem dedupCodes_keys_nodup (l : List MedicalCodeRec) :
    ∀ seen : List String, ((dedupCodes l seen).map codeKey).Nodup := by
  induction l with
  | nil => intro seen; simp [dedupCodes]
  | cons c rest ih =>
    intro seen
    cases hc : seen.contains (codeKey c) with
    | true =>
      rw [show dedupCodes (c :: rest) seen = dedupCodes rest seen from by
        simp only [dedupCodes, hc, if_true]]
      exact ih seen
    | false =>
      rw [show dedupCodes (c :: rest) seen =
          c :: dedupCodes rest (codeKey c :: seen) from by
        simp only [dedupCodes, hc, Bool.false_eq_true, if_false]]
      rw [List.map_cons, List.nodup_cons]
      refine ⟨?_, ih _⟩
      intro hmem
      obtain ⟨e, he, hkey⟩ := List.mem_map.mp hmem
      obtain ⟨hnot, -⟩ := dedupCodes_spec rest (codeKey c :: seen) e he
      exact hnot (hkey ▸ List.mem_cons_self _ _)

/--
Counterexample to C1 as stated: `CignaPolicyScraper.extract_medical_codes`
(src/scraper.py) performs no deduplication — on the body text
`"12345 12345"` it returns two entries for the pair
`("12345", CPT)`, one per occurrence.
-/
theorem C1_counterexample :
    ((extract_medical_codes "12345 12345").filter
        (fun e => e.code == "12345" && e.code_type == "CPT")).length = 2 := by
  decide

/--
C1 (amended): the backend extractor
`DataExtractor._extract_medical_codes` deduplicates by
`(code, codeType)` with the first occurrence winning — its result has
pairwise-distinct `(code, type)` keys and every returned entry is the
first entry with its key among the raw regex matches; the scraper-side
`CignaPolicyScraper.extract_medical_codes`, by contrast, returns one
entry per occurrence with no deduplication.
-/
theorem C1_extractor_dedup_first_wins (text : String) :
    ((DataExtractor.extract_medical_codes text).map codeKey).Nodup ∧
    ∀ e ∈ DataExtractor.extract_medical_codes text,
      ∃ l1 l2, extractorRawCodes text = l1 ++ e :: l2 ∧
        ∀ x ∈ l1, codeKey x ≠ codeKey e := by
  constructor
  · exact dedupCodes_keys_nodup (extractorRawCodes text) []
  · intro e he
    obtain ⟨-, l1, l2, hsplit, hne⟩ := dedupCodes_spec (extractorRawCodes text) [] e he
    exact ⟨l1, l2, hsplit, hne⟩

/-! ## Link/Title resolver: C8 -/

/--
Counterexample to C8 as stated: for the URL
`.../mm_0586_coveragepositioncriteria_alveoloplasty.pdf` with no
extractable title text on the page, the resolver produces
`"Alveoloplasty - (MM0586)"` — the slug-derived name with the policy
type/number suffix appended — not the bare `"Alveoloplasty"` the claim
states.
-/
theorem C8_counterexample :
    extract_title_near_coordinates {}
        { uri := "https://static.cigna.com/assets/chcp/pdf/coveragePolicies/medical/mm_0586_coveragepositioncriteria_alveoloplasty.pdf" } =
      "Alveoloplasty - (MM0586)" ∧
    ("Alveoloplasty - (MM0586)" : String) ≠ "Alveoloplasty" := by
  refine ⟨by decide, by decide⟩

/--
C8 (amended): whenever the URL matches the policy-number-and-name
convention (so `extract_title_from_url` succeeds), the resolver returns
the URL-derived title without consulting any table cell or word box;
the derivation converts underscores to spaces and title-cases, but
appends the uppercased type tag and policy number, so the
alveoloplasty URL yields `"Alveoloplasty - (MM0586)"`; and when every
heuristic fails the resolver returns the literal `"Unknown Policy"`.
-/
theorem C8_url_priority_and_fallback :
    (∀ (page : PdfPage) (annot : Annot),
       annot.uri ≠ "" →
       extract_title_from_url annot.uri ≠ "" →
       extract_title_from_url annot.uri ≠ "Unknown Policy" →
       extract_title_near_coordinates page annot = extract_title_from_url annot.uri) ∧
    extract_title_from_url
        "https://static.cigna.com/assets/chcp/pdf/coveragePolicies/medical/mm_0586_coveragepositioncriteria_alveoloplasty.pdf" =
      "Alveoloplasty - (MM0586)" ∧
    (∀ (page : PdfPage) (annot : Annot),
       (annot.uri = "" ∨ extract_title_from_url annot.uri = "Unknown Policy") →
       firstGoodCellTables page.tables = none →
       (nearbyWordsTitle page annot).length ≤ 5 →
       lastResortUrlTitle annot.uri = none →
       extract_title_near_coordinates page annot = "Unknown Policy") := by
  refine ⟨?_, by decide, ?_⟩
  · intro page annot h1 h2 h3
    simp [extract_title_near_coordinates, h1, h2, h3]
  · intro page annot hd ht hw hl
    have hcond : (nearbyWordsTitle page annot != "" &&
        decide (5 < (nearbyWordsTitle page annot).length)) = false := by
      by_cases he : nearbyWordsTitle page annot = ""
      · simp [he]
      · have h5 : ¬ (5 < (nearbyWordsTitle page annot).length) := by omega
        simp [he, h5]
    rcases hd with huri | hurl
    · rw [huri] at hl
      simp [extract_title_near_coordinates, huri, ht, hcond, hl]
    · by_cases huri : annot.uri = ""
      · rw [huri] at hl
        simp [extract_title_near_coordinates, huri, ht, hcond, hl]
      · simp [extract_title_near_coordinates, huri, hurl, ht, hcond, hl]

/-- Witness for C8 (amended): the alveoloplasty URL wins over a page
with a plausible table cell and words; an empty annotation with an
empty page falls through to `"Unknown Policy"`. -/
theorem C8_url_priority_and_fallback_witness :
    extract_title_near_coordinates
        { tables := [[[some "Other Policy Name (9999)"]]],
          words := [{ text := "Wording", x0 := 0, y0 := 0, x1 := 50, y1 := 10 }] }
        { uri := "https://static.cigna.com/assets/chcp/pdf/coveragePolicies/medical/mm_0586_coveragepositioncriteria_alveoloplasty.pdf" } =
      extract_title_from_url
        "https://static.cigna.com/assets/chcp/pdf/coveragePolicies/medical/mm_0586_coveragepositioncriteria_alveoloplasty.pdf" ∧
    extract_title_near_coordinates {} {} = "Unknown Policy" := by
  constructor
  · exact C8_url_priority_and_fallback.1
      { tables := [[[some "Other Policy Name (9999)"]]],
        words := [{ text := "Wording", x0 := 0, y0 := 0, x1 := 50, y1 := 10 }] }
      { uri := "https://static.cigna.com/assets/chcp/pdf/coveragePolicies/medical/mm_0586_coveragepositioncriteria_alveoloplasty.pdf" }
      (by decide) (by decide) (by decide)
  · exact C8_url_priority_and_fallback.2.2 {} {} (Or.inl rfl) (by decide) (by decide)
      (by decide)

/-! ## Scanner completeness (towards C3) -/

/-- A `getLast?` value is a member. -/
theorem getLast?_mem_of_eq {α : Type} :
    ∀ (l : List α) (a : α), l.getLast? = some a → a ∈ l := by
  intro l
  induction l with
  | nil => intro a h; simp at h
  | cons x xs ih =>
    intro a h
    cases xs with
    | nil =>
      simp only [List.getLast?_singleton, Option.some.injEq] at h
      exact h ▸ List.mem_singleton_self _
    | cons y ys =>
      rw [List.getLast?_cons_cons] at h
      exact List.mem_cons_of_mem _ (ih a h)

/-- `getLast?` of an append with a non-empty right part. -/
theorem getLast?_append_ne {α : Type} (a b : List α) (hb : b ≠ []) :
    (a ++ b).getLast? = b.getLast? := by
  induction a with
  | nil => rfl
  | cons x xs ih =>
    rw [List.cons_append]
    cases hab : xs ++ b with
    | nil =>
      exact absurd (List.append_eq_nil.mp hab).2 hb
    | cons y ys =>
      rw [List.getLast?_cons_cons, ← hab, ih]

/-- Left factors of equal appends of compatible lengths. -/
theorem append_split {α : Type} :
    ∀ (a c b d : List α), a ++ b = c ++ d → a.length ≤ c.length →
      ∃ r, c = a ++ r := by
  intro a
  induction a with
  | nil => intro c b d _ _; exact ⟨c, rfl⟩
  | cons x a' ih =>
    intro c b d heq hlen
    cases c with
    | nil => simp at hlen
    | cons y c' =>
      simp only [List.cons_append, List.cons.injEq] at heq
      obtain ⟨hxy, heq'⟩ := heq
      obtain ⟨r, hr⟩ := ih c' b d heq' (by simpa using hlen)
      exact ⟨r, by rw [hxy, hr]; rfl⟩

/-- Digits are word characters. -/
theorem wordChar_of_isDigit (c : Char) (h : c.isDigit = true) : wordChar c = true := by
  simp [wordChar, Char.isAlphanum, h]

/-- Uppercase letters are word characters. -/
theorem wordChar_of_isUpper (c : Char) (h : c.isUpper = true) : wordChar c = true := by
  simp [wordChar, Char.isAlphanum, Char.isAlpha, h]

/-- A list all of whose members are word characters cannot end a
non-word-terminated block. -/
theorem no_nonword_last_of_allword (m q r : List Char)
    (hm : ∀ c ∈ m, wordChar c = true) (heq : m = q ++ r) (hq : q ≠ [])
    (hlast : ∀ c, q.getLast? = some c → wordChar c = false) : False := by
  cases hql : q.getLast? with
  | none => exact hq (List.getLast?_eq_none_iff.mp hql)
  | some c =>
    have hcm : c ∈ m := by
      rw [heq]
      exact List.mem_append_left _ (getLast?_mem_of_eq q c hql)
    have h1 := hm c hcm
    have h2 := hlast c hql
    rw [h1] at h2
    exact Bool.noConfusion h2

/-- Completeness of the fueled scan: if the text decomposes as
`q ++ tok ++ post`, the matcher fires exactly on `tok ++ post`, any
match inside `q` stays inside `q`, and the block left of `tok` ends in
a non-word character, then the scan emits `tok`. -/
theorem scan_complete (tm : List Char → Option (List Char × List Char))
    (tok post : List Char)
    (hw : ∃ t0 ts, tok = t0 :: ts ∧ wordChar t0 = true)
    (hhead : tm (tok ++ post) = some (tok, post))
    (heq : ∀ cs mtok mrest, tm cs = some (mtok, mrest) → cs = mtok ++ mrest ∧ mtok ≠ [])
    (hsep : ∀ q mtok mrest, q ≠ [] →
        (∀ c, q.getLast? = some c → wordChar c = false) →
        tm (q ++ (tok ++ post)) = some (mtok, mrest) →
        ∃ q', q = mtok ++ q' ∧ q' ≠ []) :
    ∀ (fuel : Nat) (q : List Char) (prevW : Bool) (pos : Nat),
      (q ++ tok ++ post).length ≤ fuel →
      (q = [] → prevW = false) →
      (∀ c, q.getLast? = some c → wordChar c = false) →
      ∃ p, (p, tok) ∈ scanAux tm fuel prevW pos (q ++ tok ++ post) := by
  intro fuel
  induction fuel with
  | zero =>
    intro q prevW pos hlen _ _
    obtain ⟨t0, ts, htok, -⟩ := hw
    exfalso
    rw [htok] at hlen
    simp [List.length_append] at hlen
  | succ fuel ih =>
    intro q prevW pos hlen hq0 hqlast
    cases q with
    | nil =>
      obtain ⟨t0, ts, htok, ht0⟩ := hw
      have hprev : prevW = false := hq0 rfl
      subst hprev
      refine ⟨pos, ?_⟩
      have hsame : ([] : List Char) ++ tok ++ post = tok ++ post := by simp
      rw [hsame, htok]
      have hb : (false != wordChar t0) = true := by rw [ht0]; rfl
      have hh2 : tm (t0 :: (ts ++ post)) = some (t0 :: ts, post) := by
        rw [← List.cons_append]
        rw [← htok]
        exact hhead
      rw [List.cons_append]
      simp only [scanAux, hb, if_true, hh2]
      exact List.mem_cons_self _ _
    | cons c q' =>
      have hq'0 : q' = [] → wordChar c = false := by
        intro h
        subst h
        exact hqlast c rfl
      have hq'last : ∀ d, q'.getLast? = some d → wordChar d = false := by
        intro d hd
        apply hqlast
        cases q' with
        | nil => simp at hd
        | cons x xs => rw [List.getLast?_cons_cons]; exact hd
      have hlen' : (q' ++ tok ++ post).length ≤ fuel := by
        simp only [List.length_append, List.cons_append, List.length_cons] at hlen ⊢
        omega
      rw [List.cons_append, List.cons_append]
      by_cases hb : (prevW != wordChar c) = true
      · cases hm : tm (c :: (q' ++ tok ++ post)) with
        | none =>
          simp only [scanAux, hb, if_true, hm]
          obtain ⟨p, hp⟩ := ih q' (wordChar c) (pos + 1) hlen' hq'0 hq'last
          exact ⟨p, by rw [List.append_assoc] at hp ⊢; exact hp⟩
        | some pr =>
          obtain ⟨mtok, mrest⟩ := pr
          have hm' : tm ((c :: q') ++ (tok ++ post)) = some (mtok, mrest) := by
            rw [List.cons_append, ← List.append_assoc]
            exact hm
          obtain ⟨q'', hq'', hq''ne⟩ := hsep (c :: q') mtok mrest (by simp)
            (by intro d hd; exact hqlast d hd) hm'
          obtain ⟨hcs, hmne⟩ := heq _ _ _ hm'
          have hmrest : mrest = q'' ++ (tok ++ post) := by
            rw [hq''] at hcs
            rw [List.append_assoc] at hcs
            exact (List.append_cancel_left hcs).symm
          have hmlen : 1 ≤ mtok.length := by
            cases mtok with
            | nil => exact absurd rfl hmne
            | cons _ _ => simp
          have hlenq : (c :: q').length = mtok.length + q''.length := by
            rw [hq'', List.length_append]
          have hlen'' : (q'' ++ tok ++ post).length ≤ fuel := by
            simp only [List.length_append, List.cons_append, List.length_cons] at hlen hlenq ⊢
            omega
          have hq''last : ∀ d, q''.getLast? = some d → wordChar d = false := by
            intro d hd
            apply hqlast
            rw [show (c :: q').getLast? = q''.getLast? from by
              rw [hq'']; exact getLast?_append_ne _ _ hq''ne]
            exact hd
          obtain ⟨p, hp⟩ := ih q''
            (match mtok.getLast? with | some t => wordChar t | none => prevW)
            (pos + mtok.length) hlen'' (fun h => absurd h hq''ne) hq''last
          refine ⟨p, ?_⟩
          simp only [scanAux, hb, if_true, hm]
          apply List.mem_cons_of_mem
          rw [hmrest]
          rw [List.append_assoc] at hp
          exact hp
      · have hb' : (prevW != wordChar c) = false := by simpa using hb
        simp only [scanAux, hb', Bool.false_eq_true, if_false]
        obtain ⟨p, hp⟩ := ih q' (wordChar c) (pos + 1) hlen' hq'0 hq'last
        exact ⟨p, by rw [List.append_assoc] at hp ⊢; exact hp⟩

/-- `okRight` is exactly the trailing-boundary test. -/
theorem okRight_eq_afterB (l : List Char) : okRight l = afterB l := by
  cases l <;> rfl

/-- `okLeft` gives the last-character condition used by the scan. -/
theorem okLeft_spec (l : List Char) (h : okLeft l = true) :
    ∀ c, l.getLast? = some c → wordChar c = false := by
  intro c hc
  unfold okLeft at h
  rw [hc] at h
  simpa using h

/-- Shape of a CPT match. -/
theorem cptTry_eq (cs mtok mrest : List Char)
    (h : cptTry cs = some (mtok, mrest)) :
    cs = mtok ++ mrest ∧ mtok ≠ [] ∧ ∀ x ∈ mtok, wordChar x = true := by
  rcases cs with _ | ⟨a, _ | ⟨b, _ | ⟨c, _ | ⟨d, _ | ⟨e, rest⟩⟩⟩⟩⟩ <;>
    simp only [cptTry] at h
  · exact absurd h (by simp)
  · exact absurd h (by simp)
  · exact absurd h (by simp)
  · exact absurd h (by simp)
  · exact absurd h (by simp)
  · split_ifs at h with hg
    · simp only [Option.some.injEq, Prod.mk.injEq] at h
      obtain ⟨hm, hr⟩ := h
      subst hm
      subst hr
      simp only [Bool.and_eq_true] at hg
      refine ⟨rfl, by simp, ?_⟩
      intro x hx
      simp only [List.mem_cons, List.mem_singleton] at hx
      rcases hx with rfl | rfl | rfl | rfl | rfl | hx
      · exact wordChar_of_isDigit _ hg.1.1.1.1.1
      · exact wordChar_of_isDigit _ hg.1.1.1.1.2
      · exact wordChar_of_isDigit _ hg.1.1.1.2
      · exact wordChar_of_isDigit _ hg.1.1.2
      · exact wordChar_of_isDigit _ hg.1.2
      · simp at hx

/-- Shape of an HCPCS match. -/
theorem hcpcsTry_eq (cs mtok mrest : List Char)
    (h : hcpcsTry cs = some (mtok, mrest)) :
    cs = mtok ++ mrest ∧ mtok ≠ [] ∧ ∀ x ∈ mtok, wordChar x = true := by
  rcases cs with _ | ⟨a, _ | ⟨b, _ | ⟨c, _ | ⟨d, _ | ⟨e, rest⟩⟩⟩⟩⟩ <;>
    simp only [hcpcsTry] at h
  · exact absurd h (by simp)
  · exact absurd h (by simp)
  · exact absurd h (by simp)
  · exact absurd h (by simp)
  · exact absurd h (by simp)
  · split_ifs at h with hg
    · simp only [Option.some.injEq, Prod.mk.injEq] at h
      obtain ⟨hm, hr⟩ := h
      subst hm
      subst hr
      simp only [Bool.and_eq_true] at hg
      refine ⟨rfl, by simp, ?_⟩
      intro x hx
      simp only [List.mem_cons, List.mem_singleton] at hx
      rcases hx with rfl | rfl | rfl | rfl | rfl | hx
      · exact wordChar_of_isUpper _ hg.1.1.1.1.1
      · exact wordChar_of_isDigit _ hg.1.1.1.1.2
      · exact wordChar_of_isDigit _ hg.1.1.1.2
      · exact wordChar_of_isDigit _ hg.1.1.2
      · exact wordChar_of_isDigit _ hg.1.2
      · simp at hx

/-- A match whose characters are all word characters cannot start inside
the block left of a standalone token: it ends strictly inside it. -/
theorem sep_of_allword (q mtok mrest rest2 : List Char)
    (hcs : q ++ rest2 = mtok ++ mrest) (hne : mtok ≠ [])
    (hall : ∀ x ∈ mtok, wordChar x = true) (hq : q ≠ [])
    (hlast : ∀ c, q.getLast? = some c → wordChar c = false) :
    ∃ q', q = mtok ++ q' ∧ q' ≠ [] := by
  by_cases hlen : q.length ≤ mtok.length
  · obtain ⟨r, hr⟩ := append_split q mtok rest2 mrest hcs hlen
    exact absurd (no_nonword_last_of_allword mtok q r hall hr hq hlast) id
  · obtain ⟨r, hr⟩ := append_split mtok q mrest rest2 hcs.symm (by omega)
    refine ⟨r, hr, ?_⟩
    intro hrnil
    rw [hrnil, List.append_nil] at hr
    rw [hr] at hlen
    omega

/-- A CPT token is five digit characters. -/
theorem isCPTtok_shape (tok : List Char) (h : isCPTtok tok = true) :
    ∃ a b c d e, tok = [a, b, c, d, e] ∧ a.isDigit = true ∧ b.isDigit = true ∧
      c.isDigit = true ∧ d.isDigit = true ∧ e.isDigit = true := by
  rcases tok with _ | ⟨a, _ | ⟨b, _ | ⟨c, _ | ⟨d, _ | ⟨e, rest⟩⟩⟩⟩⟩ <;>
    simp only [isCPTtok, List.length_cons, List.length_nil, Bool.and_eq_true,
      beq_iff_eq, List.all_eq_true] at h
  · omega
  · omega
  · omega
  · omega
  · omega
  · cases rest with
    | nil =>
      refine ⟨a, b, c, d, e, rfl, ?_, ?_, ?_, ?_, ?_⟩ <;>
        apply h.2 <;> simp
    | cons x xs =>
      have h1 := h.1
      simp only [List.length_cons] at h1
      omega

/-- An HCPCS token is an uppercase letter and four digits. -/
theorem isHCPCStok_shape (tok : List Char) (h : isHCPCStok tok = true) :
    ∃ a b c d e, tok = [a, b, c, d, e] ∧ a.isUpper = true ∧ b.isDigit = true ∧
      c.isDigit = true ∧ d.isDigit = true ∧ e.isDigit = true := by
  rcases tok with _ | ⟨a, rest⟩
  · simp [isHCPCStok] at h
  · simp only [isHCPCStok, Bool.and_eq_true, beq_iff_eq, List.all_eq_true] at h
    rcases rest with _ | ⟨b, _ | ⟨c, _ | ⟨d, _ | ⟨e, rest'⟩⟩⟩⟩ <;>
      simp only [List.length_cons, List.length_nil] at h
    · omega
    · omega
    · omega
    · omega
    · cases rest' with
      | nil =>
        refine ⟨a, b, c, d, e, rfl, h.1.1, ?_, ?_, ?_, ?_⟩ <;>
          apply h.2 <;> simp
      | cons x xs =>
        have h1 := h.1.2
        simp only [List.length_cons] at h1
        omega

/-- The CPT matcher fires on a standalone CPT token. -/
theorem cptTry_head (tok post : List Char) (ht : isCPTtok tok = true)
    (hr : afterB post = true) : cptTry (tok ++ post) = some (tok, post) := by
  obtain ⟨a, b, c, d, e, rfl, h1, h2, h3, h4, h5⟩ := isCPTtok_shape tok ht
  simp [cptTry, h1, h2, h3, h4, h5, hr]

/-- The HCPCS matcher fires on a standalone HCPCS token. -/
theorem hcpcsTry_head (tok post : List Char) (ht : isHCPCStok tok = true)
    (hr : afterB post = true) : hcpcsTry (tok ++ post) = some (tok, post) := by
  obtain ⟨a, b, c, d, e, rfl, h1, h2, h3, h4, h5⟩ := isHCPCStok_shape tok ht
  simp [hcpcsTry, h1, h2, h3, h4, h5, hr]

/-- Digits are not uppercase letters. -/
theorem digit_not_upper (c : Char) (hd : c.isDigit = true) : c.isUpper = false := by
  simp only [Char.isDigit, Bool.and_eq_true, decide_eq_true_eq] at hd
  rw [Bool.eq_false_iff]
  intro hu
  simp only [Char.isUpper, Bool.and_eq_true, decide_eq_true_eq] at hu
  have n1 : c.val.toNat ≤ 57 := by exact_mod_cast hd.2
  have n2 : 65 ≤ c.val.toNat := by exact_mod_cast hu.1
  omega

/-- Shape of a successful greedy fraction match. -/
theorem fracTry_eq : ∀ (j : Nat) (ds fr rest' : List Char),
    fracTry j ds = some (fr, rest') →
    ds = fr ++ rest' ∧ fr ≠ [] ∧ ∀ x ∈ fr, x.isDigit = true := by
  intro j
  induction j with
  | zero => intro ds fr rest' h; simp [fracTry] at h
  | succ j ih =>
    intro ds fr rest' h
    rw [fracTry] at h
    split_ifs at h with hg
    · simp only [Option.some.injEq, Prod.mk.injEq] at h
      obtain ⟨hfr, hrest⟩ := h
      subst hfr
      subst hrest
      simp only [Bool.and_eq_true, beq_iff_eq, List.all_eq_true] at hg
      refine ⟨(List.take_append_drop _ _).symm, ?_, hg.1.2⟩
      intro h0
      have := hg.1.1
      rw [h0] at this
      simp at this
    · exact ih ds fr rest' h

/-- The greedy fraction matcher fails when the input does not start
with a digit. -/
theorem fracTry_none : ∀ (j : Nat) (ds : List Char),
    (ds = [] ∨ ∃ c cs, ds = c :: cs ∧ c.isDigit = false) →
    fracTry j ds = none := by
  intro j
  induction j with
  | zero => intro ds _; rfl
  | succ j ih =>
    intro ds hds
    rw [fracTry]
    rw [if_neg, ih ds hds]
    rcases hds with h0 | ⟨c, cs, hcons, hcd⟩
    · subst h0
      simp
    · subst hcons
      simp only [Bool.and_eq_true, not_and, and_imp]
      intro _ hall _
      have hc : c ∈ (c :: cs).take (j + 1) := by
        rw [List.take_succ_cons]
        exact List.mem_cons_self _ _
      have hdig := (List.all_eq_true.mp hall) c hc
      rw [hcd] at hdig
      exact Bool.noConfusion hdig

/-- The greedy fraction matcher returns exactly the digit block when
the continuation starts with a non-word character (or ends). -/
theorem fracTry_exact : ∀ (j : Nat) (fr post' : List Char), fr ≠ [] →
    (∀ x ∈ fr, x.isDigit = true) → fr.length ≤ j → afterB post' = true →
    fracTry j (fr ++ post') = some (fr, post') := by
  intro j
  induction j with
  | zero =>
    intro fr post' hne _ hlen _
    cases fr with
    | nil => exact absurd rfl hne
    | cons a t => simp at hlen
  | succ j ih =>
    intro fr post' hne hdig hlen hafter
    by_cases hj : fr.length = j + 1
    · rw [fracTry]
      rw [if_pos]
      · rw [← hj, List.take_left, List.drop_left]
      · rw [← hj, List.take_left, List.drop_left]
        simp only [Bool.and_eq_true, beq_iff_eq, List.all_eq_true]
        exact ⟨⟨trivial, hdig⟩, hafter⟩
    · have hlt : fr.length ≤ j := by omega
      rw [fracTry]
      rw [if_neg, ih fr post' hne hdig hlt hafter]
      simp only [Bool.and_eq_true, not_and, and_imp]
      intro hlenb hall _
      cases post' with
      | nil =>
        rw [List.append_nil] at hlenb hall
        have : (fr.take (j+1)).length = j + 1 := by simpa using hlenb
        rw [List.take_of_length_le (by omega)] at this
        omega
      | cons p0 ps =>
        have hp0w : wordChar p0 = false := by simpa [afterB] using hafter
        have hp0d : p0.isDigit = false := by
          rw [Bool.eq_false_iff]
          intro hd
          rw [wordChar_of_isDigit p0 hd] at hp0w
          exact Bool.noConfusion hp0w
        have hp0mem : p0 ∈ (fr ++ p0 :: ps).take (j + 1) := by
          rw [List.take_append_eq_append_take]
          apply List.mem_append_right
          have hk : 1 ≤ j + 1 - fr.length := by omega
          cases hkk : j + 1 - fr.length with
          | zero => omega
          | succ k =>
            rw [List.take_succ_cons]
            exact List.mem_cons_self _ _
        have hdigp := (List.all_eq_true.mp hall) p0 hp0mem
        rw [hp0d] at hdigp
        exact Bool.noConfusion hdigp

/-- Shape of a scraper ICD-10 match. -/
theorem icdTry_eq (cs mtok mrest : List Char) (h : icdTry cs = some (mtok, mrest)) :
    cs = mtok ++ mrest ∧ mtok ≠ [] ∧
    ∃ l d1 d2, l.isUpper = true ∧ d1.isDigit = true ∧ d2.isDigit = true ∧
      (mtok = [l, d1, d2] ∨
       ∃ fr, mtok = l :: d1 :: d2 :: '.' :: fr ∧ fr ≠ [] ∧
         ∀ x ∈ fr, x.isDigit = true) := by
  rcases cs with _ | ⟨l, _ | ⟨d1, _ | ⟨d2, _ | ⟨r0, ds⟩⟩⟩⟩
  · simp [icdTry] at h
  · simp [icdTry] at h
  · simp [icdTry] at h
  · simp only [icdTry] at h
    split_ifs at h with hg
    simp only [icdLetter, Bool.and_eq_true] at hg
    have hlu : l.isUpper = true := hg.1.1.1
    have hd1 : d1.isDigit = true := hg.1.2
    have hd2 : d2.isDigit = true := hg.2
    simp only [Option.some.injEq, Prod.mk.injEq] at h
    obtain ⟨hm, hr⟩ := h
    subst hm
    subst hr
    exact ⟨rfl, by simp, l, d1, d2, hlu, hd1, hd2, Or.inl rfl⟩
  · simp only [icdTry] at h
    split_ifs at h with hg hdot hab
    · simp only [icdLetter, Bool.and_eq_true] at hg
      have hlu : l.isUpper = true := hg.1.1.1
      have hd1 : d1.isDigit = true := hg.1.2
      have hd2 : d2.isDigit = true := hg.2
      subst hdot
      cases hf : fracTry 4 ds with
      | some pr =>
        obtain ⟨fr, rest'⟩ := pr
        rw [hf] at h
        simp only [Option.some.injEq, Prod.mk.injEq] at h
        obtain ⟨hm, hr⟩ := h
        subst hm
        subst hr
        obtain ⟨hds2, hfrne, hfrd⟩ := fracTry_eq 4 ds fr _ hf
        refine ⟨?_, by simp, l, d1, d2, hlu, hd1, hd2,
          Or.inr ⟨fr, rfl, hfrne, hfrd⟩⟩
        rw [hds2]
        rfl
      | none =>
        rw [hf] at h
        simp only [Option.some.injEq, Prod.mk.injEq] at h
        obtain ⟨hm, hr⟩ := h
        subst hm
        subst hr
        exact ⟨rfl, by simp, l, d1, d2, hlu, hd1, hd2, Or.inl rfl⟩
    · simp only [icdLetter, Bool.and_eq_true] at hg
      have hlu : l.isUpper = true := hg.1.1.1
      have hd1 : d1.isDigit = true := hg.1.2
      have hd2 : d2.isDigit = true := hg.2
      simp only [Option.some.injEq, Prod.mk.injEq] at h
      obtain ⟨hm, hr⟩ := h
      subst hm
      subst hr
      exact ⟨rfl, by simp, l, d1, d2, hlu, hd1, hd2, Or.inl rfl⟩

/-- Structure of an ICD-10 token of the scraper's pattern. -/
theorem isICDtok_shape (tok : List Char) (h : isICDtok tok = true) :
    ∃ l d1 d2, icdLetter l = true ∧ d1.isDigit = true ∧ d2.isDigit = true ∧
      (tok = [l, d1, d2] ∨
       ∃ fr, tok = l :: d1 :: d2 :: '.' :: fr ∧ fr ≠ [] ∧ fr.length ≤ 4 ∧
         ∀ x ∈ fr, x.isDigit = true) := by
  rcases tok with _ | ⟨l, _ | ⟨d1, _ | ⟨d2, rest⟩⟩⟩
  · simp [isICDtok] at h
  · simp [isICDtok] at h
  · simp [isICDtok] at h
  · cases rest with
    | nil =>
      simp only [isICDtok, Bool.and_eq_true] at h
      exact ⟨l, d1, d2, h.1.1.1, h.1.1.2, h.1.2, Or.inl rfl⟩
    | cons r0 fr =>
      simp only [isICDtok, Bool.and_eq_true] at h
      obtain ⟨⟨⟨hl, hd1⟩, hd2⟩, hre⟩ := h
      obtain ⟨⟨⟨hr0, hfne⟩, hflen⟩, hfall⟩ := hre
      have hr0' : r0 = '.' := by
        exact beq_iff_eq.mp hr0
      subst hr0'
      refine ⟨l, d1, d2, hl, hd1, hd2, Or.inr ⟨fr, rfl, ?_, ?_, ?_⟩⟩
      · intro hnil
        rw [hnil] at hfne
        simp at hfne
      · exact of_decide_eq_true hflen
      · intro x hx
        exact (List.all_eq_true.mp hfall) x hx

/-- The scraper ICD-10 matcher fires on a standalone ICD-10 token,
provided that a bare three-character token is not followed by a dot and
a digit (which the greedy optional fraction would swallow). -/
theorem icdTry_head (tok post : List Char) (ht : isICDtok tok = true)
    (hr : afterB post = true)
    (hnd : tok.length = 3 → noDotDigit post = true) :
    icdTry (tok ++ post) = some (tok, post) := by
  obtain ⟨l, d1, d2, hl, hd1, hd2, hcase⟩ := isICDtok_shape tok ht
  have hguard : (icdLetter l && d1.isDigit && d2.isDigit) = true := by
    rw [hl, hd1, hd2]
    rfl
  rcases hcase with htok | ⟨fr, htok, hfne, hflen, hfall⟩
  · subst htok
    cases post with
    | nil =>
      simp [icdTry, hguard]
    | cons r0 ds =>
      have hnd' : noDotDigit (r0 :: ds) = true := hnd rfl
      simp only [List.cons_append, List.nil_append, icdTry, hguard, if_true]
      by_cases hr0 : r0 = '.'
      · subst hr0
        rw [if_pos rfl]
        have hfn : fracTry 4 ds = none := by
          apply fracTry_none
          cases ds with
          | nil => exact Or.inl rfl
          | cons c cs =>
            refine Or.inr ⟨c, cs, rfl, ?_⟩
            simp only [noDotDigit] at hnd'
            simpa using hnd'
        rw [hfn]
      · rw [if_neg hr0, if_pos hr]
  · subst htok
    have hfrac : fracTry 4 (fr ++ post) = some (fr, post) :=
      fracTry_exact 4 fr post hfne hfall hflen hr
    simp only [List.cons_append, icdTry, hguard, if_true]
    rw [hfrac]

/-- A non-word-terminated prefix of a dotted ICD-10 token is exactly the
letter, the two digits and the dot. -/
theorem icd_dotted_split (l d1 d2 : Char) (fr q r : List Char)
    (hl : l.isUpper = true) (hd1 : d1.isDigit = true) (hd2 : d2.isDigit = true)
    (hfall : ∀ x ∈ fr, x.isDigit = true)
    (heq : l :: d1 :: d2 :: '.' :: fr = q ++ r)
    (hq : q ≠ [])
    (hlast : ∀ c, q.getLast? = some c → wordChar c = false) :
    q = [l, d1, d2, '.'] ∧ r = fr := by
  rcases q with _ | ⟨a, _ | ⟨b, _ | ⟨c, _ | ⟨d, _ | ⟨e, q5⟩⟩⟩⟩⟩
  · exact absurd rfl hq
  · simp only [List.cons_append, List.nil_append, List.cons.injEq] at heq
    obtain ⟨ha, -⟩ := heq
    have hw := hlast a (by simp)
    have hw2 := wordChar_of_isUpper l hl
    rw [ha] at hw2
    rw [hw2] at hw
    exact Bool.noConfusion hw
  · simp only [List.cons_append, List.nil_append, List.cons.injEq] at heq
    obtain ⟨-, hb, -⟩ := heq
    have hw := hlast b (by simp)
    have hw2 := wordChar_of_isDigit d1 hd1
    rw [hb] at hw2
    rw [hw2] at hw
    exact Bool.noConfusion hw
  · simp only [List.cons_append, List.nil_append, List.cons.injEq] at heq
    obtain ⟨-, -, hc, -⟩ := heq
    have hw := hlast c (by simp)
    have hw2 := wordChar_of_isDigit d2 hd2
    rw [hc] at hw2
    rw [hw2] at hw
    exact Bool.noConfusion hw
  · simp only [List.cons_append, List.nil_append, List.cons.injEq] at heq
    obtain ⟨rfl, rfl, rfl, rfl, hfr⟩ := heq
    exact ⟨rfl, hfr.symm⟩
  · simp only [List.cons_append, List.nil_append, List.cons.injEq] at heq
    obtain ⟨rfl, rfl, rfl, rfl, hfr⟩ := heq
    exfalso
    refine no_nonword_last_of_allword fr (e :: q5) r
      (fun x hx => wordChar_of_isDigit x (hfall x hx)) hfr (by simp) ?_
    intro c0 hc0
    apply hlast c0
    rw [show (l :: d1 :: d2 :: '.' :: e :: q5) = [l, d1, d2, '.'] ++ (e :: q5)
      from rfl]
    rw [getLast?_append_ne [l, d1, d2, '.'] (e :: q5) (by simp)]
    exact hc0

/-- A scraper ICD-10 match inside the block preceding a standalone token
that begins with an uppercase letter never reaches into that token. -/
theorem icdTry_sep (tok post : List Char)
    (hw : ∃ t0 ts, tok = t0 :: ts ∧ t0.isUpper = true) :
    ∀ q mtok mrest, q ≠ [] →
      (∀ c, q.getLast? = some c → wordChar c = false) →
      icdTry (q ++ (tok ++ post)) = some (mtok, mrest) →
      ∃ q', q = mtok ++ q' ∧ q' ≠ [] := by
  intro q mtok mrest hq hlast h
  obtain ⟨hcs, hmne, l, d1, d2, hl, hd1, hd2, hshape⟩ := icdTry_eq _ _ _ h
  rcases hshape with hmtok | ⟨fr, hmtok, hfne, hfall⟩
  · refine sep_of_allword q mtok mrest (tok ++ post) hcs hmne ?_ hq hlast
    intro x hx
    rw [hmtok] at hx
    simp only [List.mem_cons, List.mem_singleton] at hx
    rcases hx with rfl | rfl | rfl | hx
    · exact wordChar_of_isUpper _ hl
    · exact wordChar_of_isDigit _ hd1
    · exact wordChar_of_isDigit _ hd2
    · simp at hx
  · by_cases hlen : q.length ≤ mtok.length
    · exfalso
      obtain ⟨r, hr⟩ := append_split q mtok (tok ++ post) mrest hcs hlen
      rw [hmtok] at hr
      obtain ⟨hq4, hrfr⟩ := icd_dotted_split l d1 d2 fr q r hl hd1 hd2 hfall
        hr hq hlast
      have hcs2 : q ++ (tok ++ post) = q ++ (fr ++ mrest) := by
        rw [hcs, hmtok, hq4]
        rfl
      have htp : tok ++ post = fr ++ mrest := by
        exact List.append_cancel_left hcs2
      obtain ⟨t0, ts, htok, ht0⟩ := hw
      cases fr with
      | nil => exact hfne rfl
      | cons f0 fs =>
        have hheads : t0 = f0 := by
          rw [htok] at htp
          simp only [List.cons_append] at htp
          exact (List.cons.injEq _ _ _ _ ▸ htp).1
        have hf0d : f0.isDigit = true := hfall f0 (by simp)
        have := digit_not_upper f0 hf0d
        rw [← hheads] at this
        rw [ht0] at this
        exact Bool.noConfusion this
    · have hlen' : mtok.length ≤ q.length := le_of_lt (not_le.mp hlen)
      obtain ⟨r, hr⟩ := append_split mtok q mrest (tok ++ post) hcs.symm hlen'
      refine ⟨r, hr, ?_⟩
      intro hrnil
      rw [hrnil, List.append_nil] at hr
      rw [hr] at hlen
      exact hlen le_rfl

/-- A matcher whose tokens are all word characters never reaches across
the non-word boundary ending the preceding block. -/
theorem allword_sep (tm : List Char → Option (List Char × List Char))
    (hsh : ∀ cs mtok mrest, tm cs = some (mtok, mrest) →
      cs = mtok ++ mrest ∧ mtok ≠ [] ∧ ∀ x ∈ mtok, wordChar x = true)
    (rest2 : List Char) :
    ∀ q mtok mrest, q ≠ [] →
      (∀ c, q.getLast? = some c → wordChar c = false) →
      tm (q ++ rest2) = some (mtok, mrest) →
      ∃ q', q = mtok ++ q' ∧ q' ≠ [] := by
  intro q mtok mrest hq hlast h
  obtain ⟨hcs, hmne, hall⟩ := hsh _ _ _ h
  exact sep_of_allword q mtok mrest rest2 hcs hmne hall hq hlast

/-- C3: on any text of the form `L ++ tok ++ R` whose flanks leave `tok`
standalone (non-word characters, or nothing, on both sides),
`extract_medical_codes` classifies a five-digit token as CPT, an
uppercase-letter-plus-four-digit token as HCPCS, and a token of the
scraper's ICD-10 shape — letter in `[A-TV-Z]` (`U` is excluded, unlike
the spec's `[A-Z]`), two digits, optional dot and one to four fraction
digits — as ICD-10; a bare three-character ICD-10 token additionally
needs its right context not to start with a dot and a digit, which the
greedy optional fraction would swallow. -/
theorem C3_standalone_code_classification (L tok R : List Char)
    (hL : okLeft L = true) (hR : okRight R = true) :
    (isCPTtok tok = true →
      ((⟨tok⟩ : String), ("CPT" : String)) ∈
        codeTypePairs (extract_medical_codes ⟨L ++ tok ++ R⟩)) ∧
    (isHCPCStok tok = true →
      ((⟨tok⟩ : String), ("HCPCS" : String)) ∈
        codeTypePairs (extract_medical_codes ⟨L ++ tok ++ R⟩)) ∧
    (isICDtok tok = true → (tok.length = 3 → noDotDigit R = true) →
      ((⟨tok⟩ : String), ("ICD-10" : String)) ∈
        codeTypePairs (extract_medical_codes ⟨L ++ tok ++ R⟩)) := by
  have hafterR : afterB R = true := by
    rw [← okRight_eq_afterB]
    exact hR
  have hlastL : ∀ c, L.getLast? = some c → wordChar c = false := okLeft_spec L hL
  refine ⟨?_, ?_, ?_⟩
  · intro ht
    obtain ⟨a, b, c, d, e, htok, h1, h2, h3, h4, h5⟩ := isCPTtok_shape tok ht
    have hw : ∃ t0 ts, tok = t0 :: ts ∧ wordChar t0 = true :=
      ⟨a, [b, c, d, e], htok, wordChar_of_isDigit a h1⟩
    have hhead := cptTry_head tok R ht hafterR
    have heq : ∀ cs mtok mrest, cptTry cs = some (mtok, mrest) →
        cs = mtok ++ mrest ∧ mtok ≠ [] := fun cs mtok mrest hh =>
      ⟨(cptTry_eq cs mtok mrest hh).1, (cptTry_eq cs mtok mrest hh).2.1⟩
    have hsep := allword_sep cptTry
      (fun cs mtok mrest hh => cptTry_eq cs mtok mrest hh) (tok ++ R)
    obtain ⟨p, hp⟩ := scan_complete cptTry tok R hw hhead heq hsep
      (L ++ tok ++ R).length L false 0 le_rfl (fun _ => rfl) hlastL
    have hp' : (p, tok) ∈ scanText cptTry (L ++ tok ++ R) := hp
    have hmem : codeEntry (L ++ tok ++ R) "CPT" (p, tok) ∈
        extract_medical_codes ⟨L ++ tok ++ R⟩ := by
      show codeEntry (L ++ tok ++ R) "CPT" (p, tok) ∈
        ((scanText cptTry (L ++ tok ++ R)).map
          (codeEntry (L ++ tok ++ R) "CPT")) ++
        ((scanText hcpcsTry (L ++ tok ++ R)).map
          (codeEntry (L ++ tok ++ R) "HCPCS")) ++
        ((scanText icdTry (L ++ tok ++ R)).map
          (codeEntry (L ++ tok ++ R) "ICD-10"))
      exact List.mem_append_left _
        (List.mem_append_left _ (List.mem_map_of_mem _ hp'))
    exact List.mem_map_of_mem _ hmem
  · intro ht
    obtain ⟨a, b, c, d, e, htok, h1, h2, h3, h4, h5⟩ := isHCPCStok_shape tok ht
    have hw : ∃ t0 ts, tok = t0 :: ts ∧ wordChar t0 = true :=
      ⟨a, [b, c, d, e], htok, wordChar_of_isUpper a h1⟩
    have hhead := hcpcsTry_head tok R ht hafterR
    have heq : ∀ cs mtok mrest, hcpcsTry cs = some (mtok, mrest) →
        cs = mtok ++ mrest ∧ mtok ≠ [] := fun cs mtok mrest hh =>
      ⟨(hcpcsTry_eq cs mtok mrest hh).1, (hcpcsTry_eq cs mtok mrest hh).2.1⟩
    have hsep := allword_sep hcpcsTry
      (fun cs mtok mrest hh => hcpcsTry_eq cs mtok mrest hh) (tok ++ R)
    obtain ⟨p, hp⟩ := scan_complete hcpcsTry tok R hw hhead heq hsep
      (L ++ tok ++ R).length L false 0 le_rfl (fun _ => rfl) hlastL
    have hp' : (p, tok) ∈ scanText hcpcsTry (L ++ tok ++ R) := hp
    have hmem : codeEntry (L ++ tok ++ R) "HCPCS" (p, tok) ∈
        extract_medical_codes ⟨L ++ tok ++ R⟩ := by
      show codeEntry (L ++ tok ++ R) "HCPCS" (p, tok) ∈
        ((scanText cptTry (L ++ tok ++ R)).map
          (codeEntry (L ++ tok ++ R) "CPT")) ++
        ((scanText hcpcsTry (L ++ tok ++ R)).map
          (codeEntry (L ++ tok ++ R) "HCPCS")) ++
        ((scanText icdTry (L ++ tok ++ R)).map
          (codeEntry (L ++ tok ++ R) "ICD-10"))
      exact List.mem_append_left _
        (List.mem_append_right _ (List.mem_map_of_mem _ hp'))
    exact List.mem_map_of_mem _ hmem
  · intro ht hnd
    obtain ⟨l, d1, d2, hl, hd1, hd2, hcase⟩ := isICDtok_shape tok ht
    have hlu : l.isUpper = true := by
      simp only [icdLetter, Bool.and_eq_true] at hl
      exact hl.1
    have hw : ∃ t0 ts, tok = t0 :: ts ∧ wordChar t0 = true := by
      rcases hcase with htok | ⟨fr, htok, -, -, -⟩
      · exact ⟨l, [d1, d2], htok, wordChar_of_isUpper l hlu⟩
      · exact ⟨l, d1 :: d2 :: '.' :: fr, htok, wordChar_of_isUpper l hlu⟩
    have hwU : ∃ t0 ts, tok = t0 :: ts ∧ t0.isUpper = true := by
      rcases hcase with htok | ⟨fr, htok, -, -, -⟩
      · exact ⟨l, [d1, d2], htok, hlu⟩
      · exact ⟨l, d1 :: d2 :: '.' :: fr, htok, hlu⟩
    have hhead := icdTry_head tok R ht hafterR hnd
    have heq : ∀ cs mtok mrest, icdTry cs = some (mtok, mrest) →
        cs = mtok ++ mrest ∧ mtok ≠ [] := fun cs mtok mrest hh =>
      ⟨(icdTry_eq cs mtok mrest hh).1, (icdTry_eq cs mtok mrest hh).2.1⟩
    have hsep := icdTry_sep tok R hwU
    obtain ⟨p, hp⟩ := scan_complete icdTry tok R hw hhead heq hsep
      (L ++ tok ++ R).length L false 0 le_rfl (fun _ => rfl) hlastL
    have hp' : (p, tok) ∈ scanText icdTry (L ++ tok ++ R) := hp
    have hmem : codeEntry (L ++ tok ++ R) "ICD-10" (p, tok) ∈
        extract_medical_codes ⟨L ++ tok ++ R⟩ := by
      show codeEntry (L ++ tok ++ R) "ICD-10" (p, tok) ∈
        ((scanText cptTry (L ++ tok ++ R)).map
          (codeEntry (L ++ tok ++ R) "CPT")) ++
        ((scanText hcpcsTry (L ++ tok ++ R)).map
          (codeEntry (L ++ tok ++ R) "HCPCS")) ++
        ((scanText icdTry (L ++ tok ++ R)).map
          (codeEntry (L ++ tok ++ R) "ICD-10"))
      exact List.mem_append_right _ (List.mem_map_of_mem _ hp')
    exact List.mem_map_of_mem _ hmem

/-- C3 counterexample: `"U07"` is a standalone uppercase letter followed
by two digits, yet the scraper's ICD-10 letter class `[A-TV-Z]` excludes
`U` and `extract_medical_codes` returns nothing at all for it. -/
theorem C3_counterexample :
    'U'.isUpper = true ∧ ('0' : Char).isDigit = true ∧
    ('7' : Char).isDigit = true ∧ extract_medical_codes "U07" = [] := by
  refine ⟨by decide, by decide, by decide, ?_⟩
  rfl

theorem C3_standalone_code_classification_witness :
    okLeft [' '] = true ∧ okRight [' '] = true ∧
    ((⟨"99213".data⟩ : String), ("CPT" : String)) ∈
      codeTypePairs (extract_medical_codes ⟨[' '] ++ "99213".data ++ [' ']⟩) ∧
    ((⟨"A12.34".data⟩ : String), ("ICD-10" : String)) ∈
      codeTypePairs (extract_medical_codes ⟨[' '] ++ "A12.34".data ++ [' ']⟩) :=
  ⟨by decide, by decide,
   (C3_standalone_code_classification [' '] "99213".data [' ']
      (by decide) (by decide)).1 (by decide),
   (C3_standalone_code_classification [' '] "A12.34".data [' ']
      (by decide) (by decide)).2.2 (by decide) (by decide)⟩
